import Mathlib

/-!
Verification of the ppbert core (binary BERT decoder and pretty renderer)
against its natural-language specification.

The development shallowly embeds the Rust sources:
  * `src/parser.rs`   — the byte-stream decoder (`Parser`), embedded in the
    `Parser` namespace.  The Rust struct `Parser { contents, pos }` becomes
    an explicit byte list `c : List Nat` (bytes are `Nat`s `< 256` on real
    inputs) plus a cursor `pos : Nat` threaded through a state monad `PM`.
  * `src/bertterm.rs`  — the term model and `PrettyPrinter`.
  * `src/symtable.rs`  — the symbol table.

Rust `Result<T, BertError>` becomes the `PRes` type below.  Recursive
parsing is made structurally recursive with a fuel parameter; running out
of fuel is the extra outcome `PRes.oof`, which the top-level entry points
are given enough fuel never to produce on the inputs the theorems speak
about.
-/

/-- Modelled from the spec: the error enumeration lives in `src/error.rs`,
which is not part of the provided sources; only its uses are.  The variants
and their payloads are reconstructed from every construction site in
`src/parser.rs` and `src/main.rs` and from spec §7 ("All decode failures
are positioned").  Every decode error carries the byte offset at which the
problem was detected. -/
inductive BertError : Type where
  | CannotOpenFile : BertError
  | InvalidMagicNumber (offset : Nat) : BertError
  | InvalidTag (offset : Nat) (tag : Nat) : BertError
  | InvalidFloat (offset : Nat) : BertError
  | InvalidLatin1Atom (offset : Nat) : BertError
  | InvalidUTF8Atom (offset : Nat) : BertError
  | EOF (offset : Nat) : BertError
  | ExtraData (offset : Nat) : BertError
  | VarintTooLarge (offset : Nat) : BertError
  deriving DecidableEq, Repr

namespace Parser

/-- Outcome of running a parsing step from some cursor position:
success with a value and the new cursor, a positioned error, or `oof`
("out of fuel", the artifact of the fuel-based embedding of recursion). -/
inductive PRes (α : Type) : Type where
  | ok (a : α) (pos : Nat) : PRes α
  | err (e : BertError) : PRes α
  | oof : PRes α
  deriving DecidableEq, Repr

/-- A parsing step: the cursor comes in, a `PRes` comes out.  The byte
buffer (`contents` in Rust) is passed to each combinator explicitly. -/
def PM (α : Type) : Type := Nat → PRes α

def PM.pure (a : α) : PM α := fun pos => .ok a pos

def PM.bind (m : PM α) (f : α → PM β) : PM β := fun pos =>
  match m pos with
  | .ok a pos' => f a pos'
  | .err e => .err e
  | .oof => .oof

instance : Monad PM where
  pure := PM.pure
  bind := PM.bind

/-- Reads the current cursor (Rust: `self.pos`). -/
def getPos : PM Nat := fun pos => .ok pos pos

/-- Fails with a positioned error (Rust: `return Err(e)`). -/
def fail (e : BertError) : PM α := fun _ => .err e

/-! ### Low-level reading methods (`parser.rs` lines 266–323) -/

/-- `Parser::eof`: the cursor has reached (or passed) the end of the buffer. -/
def eof (c : List Nat) : PM Bool := fun pos => .ok (decide (c.length ≤ pos)) pos

/-- `Parser::peek`: return the byte under the cursor without advancing, or a
positioned end-of-input error.  The branch condition makes the indexing
provably in bounds: `contents[self.pos]` is only evaluated under
`pos < contents.len()`. -/
def peek (c : List Nat) : PM Nat := fun pos =>
  if h : pos < c.length then .ok (c.get ⟨pos, h⟩) pos else .err (.EOF pos)

/-- `Parser::eat_u8`: `peek` then advance the cursor by one. -/
def eat_u8 (c : List Nat) : PM Nat := fun pos =>
  match peek c pos with
  | .ok b _ => .ok b (pos + 1)
  | .err e => .err e
  | .oof => .oof

/-- `Parser::eat_char`: one byte, viewed as a character (`b as char`). -/
def eat_char (c : List Nat) : PM Char := do
  let b ← eat_u8 c
  Pure.pure (Char.ofNat b)

/-- `Parser::eat_u16_be`: two bytes, big-endian. -/
def eat_u16_be (c : List Nat) : PM Nat := do
  let b0 ← eat_u8 c
  let b1 ← eat_u8 c
  Pure.pure ((b0 <<< 8) + b1)

/-- `Parser::eat_u32_be`: four bytes, big-endian. -/
def eat_u32_be (c : List Nat) : PM Nat := do
  let b0 ← eat_u8 c
  let b1 ← eat_u8 c
  let b2 ← eat_u8 c
  let b3 ← eat_u8 c
  Pure.pure ((b0 <<< 24) + (b1 <<< 16) + (b2 <<< 8) + b3)

/-- Reinterpret the 32-bit big-endian byte value as a signed `i32`.  In the
Rust source the sign arises from `(b0 as i32) << 24` spilling into the sign
bit; the embedded form subtracts `2^32` when bit 31 is set. -/
def toSigned32 (n : Nat) : Int :=
  if n < 2 ^ 31 then (n : Int) else (n : Int) - 2 ^ 32

/-- `Parser::eat_i32_be`: four bytes, big-endian, as a signed 32-bit value. -/
def eat_i32_be (c : List Nat) : PM Int := do
  let b0 ← eat_u8 c
  let b1 ← eat_u8 c
  let b2 ← eat_u8 c
  let b3 ← eat_u8 c
  Pure.pure (toSigned32 ((b0 <<< 24) + (b1 <<< 16) + (b2 <<< 8) + b3))

/-- `Parser::eat_u64_be`: eight bytes, big-endian. -/
def eat_u64_be (c : List Nat) : PM Nat := do
  let b0 ← eat_u8 c
  let b1 ← eat_u8 c
  let b2 ← eat_u8 c
  let b3 ← eat_u8 c
  let b4 ← eat_u8 c
  let b5 ← eat_u8 c
  let b6 ← eat_u8 c
  let b7 ← eat_u8 c
  Pure.pure ((b0 <<< 56) + (b1 <<< 48) + (b2 <<< 40) + (b3 <<< 32) +
    (b4 <<< 24) + (b5 <<< 16) + (b6 <<< 8) + b7)

/-- The `for _ in 0 .. len { bytes.push(self.eat_u8()?) }` loops of
`atom`, `atom_utf8`, `string` and `binary`, factored once: read `n` bytes
in order. -/
def eat_bytes (c : List Nat) : Nat → PM (List Nat)
  | 0 => Pure.pure []
  | n + 1 => do
    let b ← eat_u8 c
    let bs ← eat_bytes c n
    Pure.pure (b :: bs)

/-! ### The parser's view of terms

`parser.rs` constructs `BertTerm::Atom(s)` where `s` is the decoded text
(lines 179 and 182) — it never touches the symbol table.  The enum
declared in `bertterm.rs` instead has `Atom { offset, length }`.  The two
files disagree (the crate as provided cannot typecheck); this namespace
embeds the parser exactly as `parser.rs` is written, so its `BertTerm`
carries the atom text.  The renderer's view is embedded separately at top
level from `bertterm.rs`. -/

/-- An `f64` as the decoder produces it.  IEEE-754 values themselves are
outside the embedding; a float term records the raw payload it was built
from: the eight transmuted bytes (`new_float`) or the decimal text
(`old_float`). -/
inductive F64Repr : Type where
  | ofBits (bits : Nat) : F64Repr
  | ofDec (s : String) : F64Repr
  deriving DecidableEq, Repr

inductive BertTerm : Type where
  | Nil : BertTerm
  | Int (n : Int) : BertTerm
  | BigInt (n : Int) : BertTerm
  | Float (f : F64Repr) : BertTerm
  | Atom (s : String) : BertTerm
  | Tuple (ts : List BertTerm) : BertTerm
  | List (ts : List BertTerm) : BertTerm
  | Map (keys vals : List BertTerm) : BertTerm
  | String (bytes : List Nat) : BertTerm
  | Binary (bytes : List Nat) : BertTerm

/-- Whether a term is the empty-list sentinel (the discrimination
`Parser::list` performs on the parsed tail). -/
def BertTerm.isNil : BertTerm → Bool
  | .Nil => true
  | _ => false

/-- ISO-8859-1 (Latin-1) decoding of a byte sequence: every byte maps to
the Unicode code point of the same value, so (unlike UTF-8) it cannot
fail — the `InvalidLatin1Atom` error path in `Parser::atom` is dead code. -/
def latin1_decode (bytes : List Nat) : String :=
  String.mk (bytes.map Char.ofNat)

/-- Strict UTF-8 validation and decoding (Rust `String::from_utf8`),
following the UTF-8 byte-range table: overlong forms, surrogates and
values above U+10FFFF are rejected. -/
def utf8_decode : List Nat → Option (List Char)
  | [] => some []
  | b :: bs =>
    if b < 128 then
      (utf8_decode bs).map (fun cs => Char.ofNat b :: cs)
    else if 194 ≤ b ∧ b ≤ 223 then
      match bs with
      | b1 :: bs' =>
        if 128 ≤ b1 ∧ b1 ≤ 191 then
          (utf8_decode bs').map (fun cs => Char.ofNat ((b - 192) * 64 + (b1 - 128)) :: cs)
        else none
      | _ => none
    else if 224 ≤ b ∧ b ≤ 239 then
      match bs with
      | b1 :: b2 :: bs' =>
        let lo1 : Nat := if b = 224 then 160 else 128
        let hi1 : Nat := if b = 237 then 159 else 191
        if (lo1 ≤ b1 ∧ b1 ≤ hi1) ∧ (128 ≤ b2 ∧ b2 ≤ 191) then
          (utf8_decode bs').map
            (fun cs => Char.ofNat ((b - 224) * 4096 + (b1 - 128) * 64 + (b2 - 128)) :: cs)
        else none
      | _ => none
    else if 240 ≤ b ∧ b ≤ 244 then
      match bs with
      | b1 :: b2 :: b3 :: bs' =>
        let lo1 : Nat := if b = 240 then 144 else 128
        let hi1 : Nat := if b = 244 then 143 else 191
        if (lo1 ≤ b1 ∧ b1 ≤ hi1) ∧ (128 ≤ b2 ∧ b2 ≤ 191) ∧ (128 ≤ b3 ∧ b3 ≤ 191) then
          (utf8_decode bs').map
            (fun cs => Char.ofNat
              ((b - 240) * 262144 + (b1 - 128) * 4096 + (b2 - 128) * 64 + (b3 - 128)) :: cs)
        else none
      | _ => none
    else none

/-! ### Rust `f64::from_str` literal grammar

`old_float` calls `s.parse::<f64>()`; only its success or failure matters
to the decoder (the numeric value is kept as text, see `F64Repr`).  The
accepted grammar, from the Rust standard library documentation:
`Sign? ( 'inf' | 'infinity' | 'nan' | Number )` case-insensitively, where
`Number` is `Digit+ | Digit+ '.' Digit* | Digit* '.' Digit+` with an
optional exponent `('e'|'E') Sign? Digit+`. -/

def isDigitCh (ch : Char) : Bool := decide ('0' ≤ ch ∧ ch ≤ '9')

def asciiLower (ch : Char) : Char :=
  if 'A' ≤ ch ∧ ch ≤ 'Z' then Char.ofNat (ch.toNat + 32) else ch

def validMantissa (cs : List Char) : Bool :=
  let intPart := cs.takeWhile isDigitCh
  match cs.dropWhile isDigitCh with
  | [] => !intPart.isEmpty
  | '.' :: frac => (!intPart.isEmpty || !frac.isEmpty) && frac.all isDigitCh
  | _ => false

def validExp (cs : List Char) : Bool :=
  let digits :=
    match cs with
    | ch :: tl => if ch = '+' ∨ ch = '-' then tl else cs
    | [] => []
  !digits.isEmpty && digits.all isDigitCh

def is_valid_f64 (s : String) : Bool :=
  let cs :=
    match s.toList with
    | ch :: tl => if ch = '+' ∨ ch = '-' then tl else s.toList
    | [] => []
  let low := cs.map asciiLower
  if low = "inf".toList ∨ low = "infinity".toList ∨ low = "nan".toList then true
  else
    let notE : Char → Bool := fun ch => decide (ch ≠ 'e' ∧ ch ≠ 'E')
    match cs.dropWhile notE with
    | [] => validMantissa cs
    | _ :: ex => validMantissa (cs.takeWhile notE) && validExp ex

/-! ### The per-tag parsers (`parser.rs` lines 128–264) -/

/-- `Parser::small_integer`: one byte, zero-extended into an `i32`. -/
def small_integer (c : List Nat) : PM BertTerm := do
  let b ← eat_u8 c
  Pure.pure (.Int (b : Int))

/-- `Parser::integer`: four bytes, big-endian signed. -/
def integer (c : List Nat) : PM BertTerm := do
  let n ← eat_i32_be c
  Pure.pure (.Int n)

/-- First loop of `Parser::old_float`: `while !self.eof() && self.peek()? != 0`
push the byte as a character.  Fuel-based; each iteration advances the
cursor, so fuel `c.length + 1` can never run out. -/
def of_text (c : List Nat) : Nat → String → PM String
  | 0, _ => fun _ => .oof
  | fl + 1, s => do
    let e ← eof c
    if e then Pure.pure s
    else do
      let b ← peek c
      if b ≠ 0 then do
        let ch ← eat_char c
        of_text c fl (s.push ch)
      else Pure.pure s

/-- Second loop of `Parser::old_float`: skip the NUL padding,
`while !self.eof() && self.peek()? == 0`. -/
def of_zeros (c : List Nat) : Nat → PM Unit
  | 0 => fun _ => .oof
  | fl + 1 => do
    let e ← eof c
    if e then Pure.pure ()
    else do
      let b ← peek c
      if b = 0 then do
        let _ ← eat_u8 c
        of_zeros c fl
      else Pure.pure ()

/-- `Parser::old_float` (lines 138–152): letters until NUL or end of input,
skip NUL padding, then the collected text must parse as an `f64` literal —
otherwise `InvalidFloat` at the offset where the text began.  Note that
neither loop can fail on end of input. -/
def old_float (c : List Nat) : PM BertTerm := do
  let offset ← getPos
  let s ← of_text c (c.length + 1) ""
  let _ ← of_zeros c (c.length + 1)
  if is_valid_f64 s then Pure.pure (.Float (.ofDec s))
  else fail (.InvalidFloat offset)

/-- `Parser::new_float`: eight raw bytes transmuted into an `f64`. -/
def new_float (c : List Nat) : PM BertTerm := do
  let raw_bytes ← eat_u64_be c
  Pure.pure (.Float (.ofBits raw_bytes))

/-- `Parser::atom` (lines 160–185): read `len` bytes; if all are ASCII the
text is those bytes, otherwise Latin-1 decoding (which is total, so the
`InvalidLatin1Atom` path cannot be taken).  The Rust loop computes the
`is_ascii` flag while reading; reading first and testing `bytes.all`
afterwards is the same. -/
def atom (c : List Nat) (len : Nat) : PM BertTerm := do
  let _offset ← getPos
  let bytes ← eat_bytes c len
  let is_ascii := bytes.all (fun b => b < 128)
  if is_ascii then Pure.pure (.Atom (String.mk (bytes.map Char.ofNat)))
  else Pure.pure (.Atom (latin1_decode bytes))

/-- `Parser::atom_utf8`: read `len` bytes and require strict UTF-8. -/
def atom_utf8 (c : List Nat) (len : Nat) : PM BertTerm := do
  let offset ← getPos
  let buf ← eat_bytes c len
  match utf8_decode buf with
  | some cs => Pure.pure (.Atom (String.mk cs))
  | none => fail (.InvalidUTF8Atom offset)

/-- Element loop shared by `Parser::tuple` and `Parser::list`: parse `n`
terms with the given term parser, in order (the Rust loop pushes each
result onto a vector). -/
def run_terms (p : PM BertTerm) : Nat → PM (List BertTerm)
  | 0 => Pure.pure []
  | n + 1 => do
    let t ← p
    let ts ← run_terms p n
    Pure.pure (t :: ts)

/-- Pair loop of `Parser::map`: parse `n` key/value pairs in strict
alternation, collecting the two parallel vectors. -/
def run_pairs (p : PM BertTerm) : Nat → PM (List BertTerm × List BertTerm)
  | 0 => Pure.pure ([], [])
  | n + 1 => do
    let k ← p
    let v ← p
    let kvs ← run_pairs p n
    Pure.pure (k :: kvs.1, v :: kvs.2)

/-- `Parser::tuple`: exactly `len` recursively parsed terms. -/
def tuple (p : PM BertTerm) (len : Nat) : PM BertTerm := do
  let ts ← run_terms p len
  Pure.pure (.Tuple ts)

/-- `Parser::string`: 2-byte length then that many raw bytes. -/
def string (c : List Nat) : PM BertTerm := do
  let len ← eat_u16_be c
  let bytes ← eat_bytes c len
  Pure.pure (.String bytes)

/-- `Parser::binary`: 4-byte length then that many raw bytes. -/
def binary (c : List Nat) : PM BertTerm := do
  let len ← eat_u32_be c
  let bytes ← eat_bytes c len
  Pure.pure (.Binary bytes)

/-- `Parser::list` (lines 224–236): 4-byte element count, that many
elements, then one mandatory tail term; a `Nil` tail is dropped, any other
tail is pushed as one extra trailing element. -/
def list (c : List Nat) (p : PM BertTerm) : PM BertTerm := do
  let len ← eat_u32_be c
  let ts ← run_terms p len
  let tl ← p
  match tl with
  | .Nil => Pure.pure (.List ts)
  | last_term => Pure.pure (.List (ts ++ [last_term]))

/-- Digit loop of `Parser::bigint`: `sum += pos_mult * d; pos_mult *= 256`
for each of the `len` digit bytes. -/
def bigint_go (c : List Nat) : Nat → Int → Int → PM Int
  | 0, sum, _ => Pure.pure sum
  | n + 1, sum, pos_mult => do
    let d ← eat_u8 c
    bigint_go c n (sum + pos_mult * (d : Int)) (pos_mult * 256)

/-- `Parser::bigint` (lines 238–252): one sign byte, then `len` base-256
digit bytes, least significant first; the result is negated exactly when
the sign byte equals 1. -/
def bigint (c : List Nat) (len : Nat) : PM BertTerm := do
  let sign ← eat_u8 c
  let sum ← bigint_go c len 0 1
  if sign = 1 then Pure.pure (.BigInt (-sum))
  else Pure.pure (.BigInt sum)

/-- `Parser::map`: 4-byte pair count then that many key/value pairs. -/
def map (c : List Nat) (p : PM BertTerm) : PM BertTerm := do
  let len ← eat_u32_be c
  let kvs ← run_pairs p len
  Pure.pure (.Map kvs.1 kvs.2)

/-- `Parser::magic_number` (lines 68–76): one byte that must be 131,
otherwise `InvalidMagicNumber` at the offset where it was expected. -/
def magic_number (c : List Nat) : PM Unit := do
  let offset ← getPos
  let magic ← eat_u8 c
  if magic ≠ 131 then fail (.InvalidMagicNumber offset)
  else Pure.pure ()

/-- `Parser::bert_term` (lines 78–126): read one tag byte and dispatch.
The fuel decreases at each recursive descent; every sub-term of a
collection is parsed with the same remaining fuel, so fuel bounds the
nesting depth, which on a successful parse is at most the number of bytes
read. -/
def bert_term (c : List Nat) : Nat → PM BertTerm
  | 0 => fun _ => .oof
  | fl + 1 => do
    let offset ← getPos
    let tag ← eat_u8 c
    match tag with
    | 97 => small_integer c                                    -- SMALL_INTEGER_EXT
    | 98 => integer c                                          -- INTEGER_EXT
    | 99 => old_float c                                        -- FLOAT_EXT
    | 70 => new_float c                                        -- NEW_FLOAT_EXT
    | 100 => do let len ← eat_u16_be c; atom c len             -- ATOM_EXT
    | 115 => do let len ← eat_u8 c; atom c len                 -- SMALL_ATOM_EXT
    | 118 => do let len ← eat_u16_be c; atom_utf8 c len        -- ATOM_UTF8_EXT
    | 119 => do let len ← eat_u8 c; atom_utf8 c len            -- SMALL_ATOM_UTF8_EXT
    | 104 => do let len ← eat_u8 c; tuple (bert_term c fl) len -- SMALL_TUPLE_EXT
    | 105 => do let len ← eat_u32_be c; tuple (bert_term c fl) len -- LARGE_TUPLE_EXT
    | 106 => Pure.pure .Nil                                    -- NIL_EXT
    | 108 => Parser.list c (bert_term c fl)                    -- LIST_EXT
    | 107 => Parser.string c                                   -- STRING_EXT
    | 109 => binary c                                          -- BINARY_EXT
    | 110 => do let len ← eat_u8 c; bigint c len               -- SMALL_BIG_EXT
    | 111 => do let len ← eat_u32_be c; bigint c len           -- LARGE_BIG_EXT
    | 116 => Parser.map c (bert_term c fl)                     -- MAP_EXT
    | t => fail (.InvalidTag offset t)

/-- `Parser::parse` (lines 42–50): magic number, one term, and the buffer
must be exhausted — otherwise `ExtraData` at the first unconsumed byte. -/
def parse (c : List Nat) : PRes BertTerm :=
  (do
    magic_number c
    let term ← bert_term c (c.length + 1)
    let e ← eof c
    if e then Pure.pure term
    else do
      let pos ← getPos
      (fail (.ExtraData pos) : PM BertTerm)) 0

/-- The reading loop of `Parser::parse_varint` (lines 330–340):
`while !self.eof() && i < 8`, eat a byte, push it, stop when its high bit
is clear, else increment `i`.  Returns the collected bytes, the final `i`
and the final cursor.  The loop body runs at most 8 times plus one
breaking iteration, so fuel 9 can never run out. -/
def varint_go (c : List Nat) : Nat → List Nat → Nat → Nat → (List Nat × Nat × Nat)
  | 0, bytes, i, pos => (bytes, i, pos)
  | fl + 1, bytes, i, pos =>
    if h : pos < c.length ∧ i < 8 then
      let b := c.get ⟨pos, h.1⟩
      let bytes' := bytes ++ [b]
      if b &&& 128 = 0 then (bytes', i, pos + 1)
      else varint_go c fl bytes' (i + 1) (pos + 1)
    else (bytes, i, pos)

/-- The accumulation loop of `Parser::parse_varint` (lines 346–349):
over the collected bytes in reverse order, `x = (x << (7*i)) | (b & 0x7f)`
with `i` the enumeration index, in wrapping 64-bit arithmetic. -/
def varint_accum (bytes : List Nat) : Nat :=
  bytes.reverse.enum.foldl
    (fun x p => ((x <<< (7 * p.1)) % 2 ^ 64) ||| (p.2 &&& 127)) 0

/-- `Parser::parse_varint` (lines 327–352): read up to 8 bytes, then fail
as `VarintTooLarge` at the varint's starting offset when `i` reached the
8-byte budget, else accumulate. -/
def parse_varint (c : List Nat) : PM Nat := fun pos =>
  let start_pos := pos
  let r := varint_go c 9 [] 0 pos
  if 8 ≤ r.2.1 then .err (.VarintTooLarge start_pos)
  else .ok (varint_accum r.1) r.2.2

/-- The `while !self.eof()` loop of `Parser::parse_bert2` (lines 54–59):
per record, a varint length (whose value is ignored), a magic number and
one term.  Each iteration starts with `!eof` and consumes at least one
byte, so fuel `c.length + 1` can never run out. -/
def parse_bert2_go (c : List Nat) : Nat → PM (List BertTerm)
  | 0 => fun _ => .oof
  | fl + 1 => do
    let e ← eof c
    if e then Pure.pure []
    else do
      let _ ← parse_varint c
      magic_number c
      let t ← bert_term c (c.length + 1)
      let ts ← parse_bert2_go c fl
      Pure.pure (t :: ts)

/-- `Parser::parse_bert2` (lines 52–65).  The trailing `eof` check is kept
from the source although the loop can only stop at end of input. -/
def parse_bert2 (c : List Nat) : PRes (List BertTerm) :=
  (do
    let terms ← parse_bert2_go c (c.length + 1)
    let e ← eof c
    if e then Pure.pure terms
    else do
      let pos ← getPos
      (fail (.ExtraData pos) : PM (List BertTerm))) 0

end Parser

/-! ## `src/symtable.rs` — the symbol table

The Rust table owns one `String` arena and slices it by byte offsets; the
embedding records the arena as a character list and slices by character
index (for the ASCII atoms all claims exercise, the two coincide). -/

structure Symtable : Type where
  strings : List Char
  curr_offset : Nat

/-- `Symtable::new` / `with_capacity` (capacity is not modelled). -/
def Symtable.new : Symtable := ⟨[], 0⟩

/-- `Symtable::add`: append, return `(offset, length)` and the grown table. -/
def Symtable.add (st : Symtable) (s : String) : (Nat × Nat) × Symtable :=
  ((st.curr_offset, s.length),
   ⟨st.strings ++ s.toList, st.curr_offset + s.length⟩)

/-- `Symtable::get`: the slice at `offset` of length `len`. -/
def Symtable.get (st : Symtable) (offset len : Nat) : String :=
  String.mk ((st.strings.drop offset).take len)

/-! ## `src/bertterm.rs` — term model and renderer

This is the term type as `bertterm.rs` declares it: the atom variant is
`Atom { offset, length }`, a back-reference into the symbol table.  (The
parser, as written in `parser.rs`, builds an incompatible `Atom(String)`;
see the note in the `Parser` namespace.)  The `f64` payload of `Float` is
represented by the same uninterpreted `F64Repr` the parser produces. -/

def DEFAULT_INDENT_WIDTH : Nat := 2

def DEFAULT_MAX_TERMS_PER_LINE : Nat := 4

inductive BertTerm : Type where
  | Nil : BertTerm
  | Int (n : Int) : BertTerm
  | BigInt (n : Int) : BertTerm
  | Float (f : Parser.F64Repr) : BertTerm
  | Atom (offset : Nat) (length : Nat) : BertTerm
  | Tuple (ts : List BertTerm) : BertTerm
  | List (ts : List BertTerm) : BertTerm
  | Map (keys vals : List BertTerm) : BertTerm
  | String (bytes : List Nat) : BertTerm
  | Binary (bytes : List Nat) : BertTerm

/-- `BertTerm::is_basic` (`bertterm.rs` lines 26–39): everything except
tuples, lists and maps. -/
def BertTerm.is_basic : BertTerm → Bool
  | .Int _ | .BigInt _ | .Float _ | .Atom _ _ | .String _ | .Binary _ | .Nil => true
  | .List _ | .Tuple _ | .Map _ _ => false

/-- `PrettyPrinter` (`bertterm.rs` lines 43–48). -/
structure PrettyPrinter : Type where
  term : BertTerm
  indent_width : Nat
  max_terms_per_line : Nat
  symtable : Symtable

/-- Rust renders `f64` with `Display`; IEEE-754 text formatting is outside
the embedding, so the float leaf is an uninterpreted token derived from
the recorded payload.  No claim depends on its exact text. -/
def floatText : Parser.F64Repr → String
  | .ofBits bits => toString bits
  | .ofDec s => s

/-- `is_printable` (`bertterm.rs` line 184): printable ASCII, 0x20–0x7E. -/
def is_printable (b : Nat) : Bool := decide (32 ≤ b) && decide (b ≤ 126)

/-- One lowercase hex digit, for the `\xHH` escapes of `write!("\\x{:02x}")`. -/
def hexDigit (n : Nat) : Char :=
  if n < 10 then Char.ofNat (48 + n) else Char.ofNat (87 + n)

/-- A byte as its two-digit lowercase `\xHH` escape. -/
def byteEscape (b : Nat) : String :=
  String.mk ['\\', 'x', hexDigit (b / 16 % 16), hexDigit (b % 16)]

/-- `PrettyPrinter::write_string` (lines 88–102): each byte printed as its
ASCII character when printable, escaped otherwise, between the open and
close quotes. -/
def write_string (bytes : List Nat) (opn cls : String) : String :=
  opn ++
    String.join (bytes.map fun b =>
      if is_printable b then String.singleton (Char.ofNat b) else byteEscape b) ++
    cls

/-- `PrettyPrinter::indentation` (lines 175–179): a newline followed by
`depth * indent_width` spaces. -/
def PrettyPrinter.indentation (pp : PrettyPrinter) (depth : Nat) : String :=
  String.mk ('\n' :: List.replicate (depth * pp.indent_width) ' ')

/-- `PrettyPrinter::is_small_collection` (lines 170–173). -/
def PrettyPrinter.is_small_collection (pp : PrettyPrinter) (terms : List BertTerm) : Bool :=
  decide (terms.length ≤ pp.max_terms_per_line) && terms.all BertTerm.is_basic

mutual

/-- `PrettyPrinter::write_term` (lines 69–85). -/
def PrettyPrinter.write_term (pp : PrettyPrinter) : BertTerm → Nat → String
  | .Nil, _ => "[]"
  | .Int n, _ => toString n
  | .BigInt n, _ => toString n
  | .Float f, _ => floatText f
  | .Atom offset length, _ => pp.symtable.get offset length
  | .String bytes, _ => write_string bytes "\"" "\""
  | .Binary bytes, _ => write_string bytes "<<\"" "\">>"
  | .List ts, depth => PrettyPrinter.write_collection pp ts depth '[' ']'
  | .Tuple ts, depth => PrettyPrinter.write_collection pp ts depth '\x7b' '\x7d'
  | .Map keys vals, depth => PrettyPrinter.write_map pp keys vals depth
termination_by t _ => (sizeOf t, 2)

/-- `PrettyPrinter::write_collection` (lines 105–136): decide
inline/multi-line once via `is_small_collection`, pre-compute the per
element indentation, then emit the elements with a separator that is
empty before the first element and `", "` afterwards. -/
def PrettyPrinter.write_collection (pp : PrettyPrinter) (terms : List BertTerm)
    (depth : Nat) (opn cls : Char) : String :=
  let multi_line := !pp.is_small_collection terms
  let pref := if multi_line then pp.indentation (depth + 1) else ""
  String.singleton opn ++
    PrettyPrinter.write_elems pp pref depth "" terms ++
    (if multi_line then pp.indentation depth else "") ++
    String.singleton cls
termination_by (1 + sizeOf terms, 1)

/-- The element loop of `write_collection`: `comma` starts empty and is
`", "` from the second element on. -/
def PrettyPrinter.write_elems (pp : PrettyPrinter) (pref : String) (depth : Nat)
    (comma : String) : List BertTerm → String
  | [] => ""
  | t :: ts =>
    comma ++ pref ++ PrettyPrinter.write_term pp t (depth + 1) ++
      PrettyPrinter.write_elems pp pref depth ", " ts
termination_by ts => (1 + sizeOf ts, 0)

/-- `PrettyPrinter::write_map` (lines 139–168): multi-line when either the
keys or the values fail `is_small_collection`. -/
def PrettyPrinter.write_map (pp : PrettyPrinter) (keys vals : List BertTerm)
    (depth : Nat) : String :=
  let multi_line := !pp.is_small_collection keys || !pp.is_small_collection vals
  let pref := if multi_line then pp.indentation (depth + 1) else ""
  "#\x7b" ++
    PrettyPrinter.write_pairs pp pref depth "" keys vals ++
    (if multi_line then pp.indentation depth else "") ++
    "\x7d"
termination_by (1 + sizeOf keys + sizeOf vals, 1)

/-- The pair loop of `write_map`; the Rust loop runs over the key indices
and indexes `vals[i]`, which for the parser's equal-length parallel
vectors is exactly pairwise traversal (an out-of-bounds index — a Rust
panic — cannot occur then; the mismatch branch here returns `""`). -/
def PrettyPrinter.write_pairs (pp : PrettyPrinter) (pref : String) (depth : Nat)
    (comma : String) : List BertTerm → List BertTerm → String
  | k :: ks, v :: vs =>
    comma ++ pref ++ PrettyPrinter.write_term pp k (depth + 1) ++ " => " ++
      PrettyPrinter.write_term pp v (depth + 1) ++
      PrettyPrinter.write_pairs pp pref depth ", " ks vs
  | _, _ => ""
termination_by ks vs => (1 + sizeOf ks + sizeOf vs, 0)

end

/-- The spec's description of an inline rendering: the pieces joined with
a separator (`", "` in every use). -/
def sep_by (sep : String) : List String → String
  | [] => ""
  | [x] => x
  | x :: xs => x ++ sep ++ sep_by sep xs

/-- `n` spaces, for stating the spec's indentation rule. -/
def spaces (n : Nat) : String := String.mk (List.replicate n ' ')

namespace Parser

/-- The value of a little-endian base-256 digit string, `Σ digit[i]·256^i`
(what the accumulation loop of `Parser::bigint` computes). -/
def digits_val (ds : List Nat) : Int :=
  ds.foldr (fun d acc => (d : Int) + 256 * acc) 0

/-- A 16-bit length, big-endian, as the two bytes the wire carries. -/
def u16be (n : Nat) : List Nat := [n / 256, n % 256]

/-- A 32-bit length, big-endian, as the four bytes the wire carries. -/
def u32be (n : Nat) : List Nat :=
  [n / 2 ^ 24, n / 2 ^ 16 % 256, n / 256 % 256, n % 256]

/-- Index of the well-formed-encoding relation: one term, a sequence of
terms (tuple/list elements), or the alternating key/value pairs of a map. -/
inductive Node : Type where
  | one (t : BertTerm) : Node
  | seq (ts : List BertTerm) : Node
  | pairs (keys vals : List BertTerm) : Node

/-- The wire grammar of complete term encodings, except the legacy float
form (tag 99), together with the term each encoding decodes to.  One
constructor per tag branch of `Parser::bert_term`; `seq`/`pairs` describe
the concatenated element encodings of the collection forms.  Length
prefixes carry the byte-range side conditions of the wire format. -/
inductive EncI : Node → List Nat → Prop where
  | small_int (b : Nat) (hb : b < 256) :
      EncI (.one (.Int b)) [97, b]
  | int_ext (b0 b1 b2 b3 : Nat)
      (h0 : b0 < 256) (h1 : b1 < 256) (h2 : b2 < 256) (h3 : b3 < 256) :
      EncI (.one (.Int (toSigned32 ((b0 <<< 24) + (b1 <<< 16) + (b2 <<< 8) + b3))))
        [98, b0, b1, b2, b3]
  | new_float_ext (b0 b1 b2 b3 b4 b5 b6 b7 : Nat)
      (h : ∀ b ∈ [b0, b1, b2, b3, b4, b5, b6, b7], b < 256) :
      EncI (.one (.Float (.ofBits ((b0 <<< 56) + (b1 <<< 48) + (b2 <<< 40) + (b3 <<< 32) +
          (b4 <<< 24) + (b5 <<< 16) + (b6 <<< 8) + b7))))
        [70, b0, b1, b2, b3, b4, b5, b6, b7]
  | atom_ext (bs : List Nat) (hlen : bs.length < 2 ^ 16) :
      EncI (.one (.Atom (String.mk (bs.map Char.ofNat)))) (100 :: u16be bs.length ++ bs)
  | small_atom_ext (bs : List Nat) (hlen : bs.length < 2 ^ 8) :
      EncI (.one (.Atom (String.mk (bs.map Char.ofNat)))) (115 :: bs.length :: bs)
  | atom_utf8_ext (bs : List Nat) (cs : List Char) (hlen : bs.length < 2 ^ 16)
      (hdec : utf8_decode bs = some cs) :
      EncI (.one (.Atom (String.mk cs))) (118 :: u16be bs.length ++ bs)
  | small_atom_utf8_ext (bs : List Nat) (cs : List Char) (hlen : bs.length < 2 ^ 8)
      (hdec : utf8_decode bs = some cs) :
      EncI (.one (.Atom (String.mk cs))) (119 :: bs.length :: bs)
  | small_tuple_ext (ts : List BertTerm) (bss : List Nat) (hn : ts.length < 2 ^ 8)
      (hts : EncI (.seq ts) bss) :
      EncI (.one (.Tuple ts)) (104 :: ts.length :: bss)
  | large_tuple_ext (ts : List BertTerm) (bss : List Nat) (hn : ts.length < 2 ^ 32)
      (hts : EncI (.seq ts) bss) :
      EncI (.one (.Tuple ts)) (105 :: u32be ts.length ++ bss)
  | nil_ext : EncI (.one .Nil) [106]
  | string_ext (bs : List Nat) (hlen : bs.length < 2 ^ 16) :
      EncI (.one (.String bs)) (107 :: u16be bs.length ++ bs)
  | binary_ext (bs : List Nat) (hlen : bs.length < 2 ^ 32) :
      EncI (.one (.Binary bs)) (109 :: u32be bs.length ++ bs)
  | list_ext_proper (ts : List BertTerm) (bss : List Nat) (hn : ts.length < 2 ^ 32)
      (hts : EncI (.seq ts) bss) :
      EncI (.one (.List ts)) (108 :: u32be ts.length ++ bss ++ [106])
  | list_ext_improper (ts : List BertTerm) (bss : List Nat) (tl : BertTerm)
      (tbs : List Nat) (hn : ts.length < 2 ^ 32) (hts : EncI (.seq ts) bss)
      (htl : EncI (.one tl) tbs) (hnn : tl.isNil = false) :
      EncI (.one (.List (ts ++ [tl]))) (108 :: u32be ts.length ++ bss ++ tbs)
  | small_big_ext (s : Nat) (ds : List Nat) (hs : s < 256) (hlen : ds.length < 2 ^ 8) :
      EncI (.one (.BigInt (if s = 1 then -(digits_val ds) else digits_val ds)))
        (110 :: ds.length :: s :: ds)
  | large_big_ext (s : Nat) (ds : List Nat) (hs : s < 256) (hlen : ds.length < 2 ^ 32) :
      EncI (.one (.BigInt (if s = 1 then -(digits_val ds) else digits_val ds)))
        (111 :: u32be ds.length ++ s :: ds)
  | map_ext (ks vs : List BertTerm) (pbs : List Nat) (hn : ks.length < 2 ^ 32)
      (hp : EncI (.pairs ks vs) pbs) :
      EncI (.one (.Map ks vs)) (116 :: u32be ks.length ++ pbs)
  | seq_nil : EncI (.seq []) []
  | seq_cons (t : BertTerm) (ts : List BertTerm) (bs bss : List Nat)
      (ht : EncI (.one t) bs) (hts : EncI (.seq ts) bss) :
      EncI (.seq (t :: ts)) (bs ++ bss)
  | pairs_nil : EncI (.pairs [] []) []
  | pairs_cons (k v : BertTerm) (ks vs : List BertTerm) (kbs vbs pbs : List Nat)
      (hk : EncI (.one k) kbs) (hv : EncI (.one v) vbs)
      (hp : EncI (.pairs ks vs) pbs) :
      EncI (.pairs (k :: ks) (v :: vs)) (kbs ++ vbs ++ pbs)

/-- A complete single-term encoding (without the legacy float form) and
the term it decodes to. -/
def Enc (t : BertTerm) (bs : List Nat) : Prop := EncI (.one t) bs

/-- Concatenated encodings of a sequence of terms. -/
def EncSeq (ts : List BertTerm) (bss : List Nat) : Prop := EncI (.seq ts) bss

/-- Concatenated, alternating encodings of map pairs. -/
def EncPairs (ks vs : List BertTerm) (pbs : List Nat) : Prop := EncI (.pairs ks vs) pbs

/-- The cursor-safety contract of a parsing step (claim C9): started at a
cursor inside the buffer, a successful run only moves the cursor forward
and never past the end of the buffer. -/
def Bounded (xs : List Nat) (m : PM α) : Prop :=
  ∀ (pos : Nat) (a : α) (p' : Nat), pos ≤ xs.length → m pos = .ok a p' →
    pos ≤ p' ∧ p' ≤ xs.length

/-- What it means for the parser to accept a grammar node sitting at the
cursor: the corresponding parsing function succeeds with exactly the
node's term(s) and consumes exactly the encoding's bytes. -/
def NodeSpec (xs : List Nat) (fl pos : Nat) : Node → List Nat → Prop
  | .one t, bs => bert_term xs fl pos = .ok t (pos + bs.length)
  | .seq ts, bs => run_terms (bert_term xs fl) ts.length pos = .ok ts (pos + bs.length)
  | .pairs ks vs, bs =>
      run_pairs (bert_term xs fl) ks.length pos = .ok (ks, vs) (pos + bs.length)

/-- What it means for a truncated grammar node to fail: the corresponding
parsing function reports end of input at the buffer length (the position
of the read it attempted past the end). -/
def TruncSpec (xs : List Nat) (fl pos : Nat) : Node → Prop
  | .one _ => bert_term xs fl pos = .err (.EOF xs.length)
  | .seq ts => run_terms (bert_term xs fl) ts.length pos = .err (.EOF xs.length)
  | .pairs ks _ => run_pairs (bert_term xs fl) ks.length pos = .err (.EOF xs.length)

end Parser

/-!
## Theorems

Everything from here on is proof: first general stepping lemmas about the
embedded combinators, then the claim theorems.
-/

namespace Parser

@[simp] theorem pure_run (a : α) (pos : Nat) :
    (Pure.pure a : PM α) pos = .ok a pos := rfl

theorem bind_run (m : PM α) (f : α → PM β) (pos : Nat) :
    (m >>= f) pos =
      match m pos with
      | .ok a pos' => f a pos'
      | .err e => .err e
      | .oof => .oof := rfl

theorem bind_ok {m : PM α} {f : α → PM β} {pos pos' : Nat} {a : α}
    (h : m pos = .ok a pos') : (m >>= f) pos = f a pos' := by
  rw [bind_run, h]

theorem bind_err {m : PM α} {f : α → PM β} {pos : Nat} {e : BertError}
    (h : m pos = .err e) : (m >>= f) pos = .err e := by
  rw [bind_run, h]

@[simp] theorem getPos_run (pos : Nat) : getPos pos = .ok pos pos := rfl

@[simp] theorem fail_run (e : BertError) (pos : Nat) :
    (fail e : PM α) pos = .err e := rfl

@[simp] theorem eof_run (xs : List Nat) (pos : Nat) :
    eof xs pos = .ok (decide (xs.length ≤ pos)) pos := rfl

/-- A cons-shaped suffix pins down the byte under the cursor. -/
theorem get?_of_drop {xs : List Nat} {pos b : Nat} {tl : List Nat}
    (h : xs.drop pos = b :: tl) : xs.get? pos = some b := by
  have h0 := List.get?_drop xs pos 0
  rw [h] at h0
  simpa using h0.symm

theorem pos_lt_of_drop {xs : List Nat} {pos b : Nat} {tl : List Nat}
    (h : xs.drop pos = b :: tl) : pos < xs.length := by
  rcases List.get?_eq_some.mp (get?_of_drop h) with ⟨hlt, _⟩
  exact hlt

theorem drop_succ {xs : List Nat} {pos b : Nat} {tl : List Nat}
    (h : xs.drop pos = b :: tl) : xs.drop (pos + 1) = tl := by
  have h1 := List.drop_drop 1 pos xs
  rw [h] at h1
  simpa using h1.symm

/-- The whole-suffix form: `drop pos = ds` exactly determines where the
buffer ends. -/
theorem length_of_drop {xs ds : List Nat} {pos : Nat} (hpos : pos ≤ xs.length)
    (h : xs.drop pos = ds) : xs.length = pos + ds.length := by
  have := List.length_drop pos xs
  rw [h] at this
  omega

theorem peek_ok {xs : List Nat} {pos b : Nat} {tl : List Nat}
    (h : xs.drop pos = b :: tl) : peek xs pos = .ok b pos := by
  rcases List.get?_eq_some.mp (get?_of_drop h) with ⟨hlt, hget⟩
  unfold peek
  rw [dif_pos hlt]
  simp only [List.get_eq_getElem] at hget ⊢
  rw [hget]

theorem peek_eof {xs : List Nat} {pos : Nat} (h : xs.length ≤ pos) :
    peek xs pos = .err (.EOF pos) := by
  unfold peek
  rw [dif_neg (by omega)]

theorem eat_u8_ok {xs : List Nat} {pos b : Nat} {tl : List Nat}
    (h : xs.drop pos = b :: tl) : eat_u8 xs pos = .ok b (pos + 1) := by
  unfold eat_u8
  rw [peek_ok h]

theorem eat_u8_eof {xs : List Nat} {pos : Nat} (h : xs.length ≤ pos) :
    eat_u8 xs pos = .err (.EOF pos) := by
  unfold eat_u8
  rw [peek_eof h]

/-- Reading `ds.length` bytes from a buffer whose suffix at `pos` starts
with `ds` succeeds with exactly `ds`. -/
theorem eat_bytes_ok (ds : List Nat) : ∀ {xs rest : List Nat} {pos : Nat},
    xs.drop pos = ds ++ rest →
    eat_bytes xs ds.length pos = .ok ds (pos + ds.length) := by
  induction ds with
  | nil =>
    intro xs rest pos _
    simp [eat_bytes]
  | cons d ds ih =>
    intro xs rest pos h
    have h1 : xs.drop pos = d :: (ds ++ rest) := by simpa using h
    show eat_bytes xs (ds.length + 1) pos = _
    unfold eat_bytes
    rw [bind_ok (eat_u8_ok h1), bind_ok (ih (drop_succ h1)), pure_run]
    have : pos + 1 + ds.length = pos + (d :: ds).length := by
      simp
      omega
    rw [this]

/-- Reading one byte more than the buffer holds fails at its end. -/
theorem eat_bytes_eof (ds : List Nat) : ∀ {xs : List Nat} {pos : Nat},
    pos ≤ xs.length → xs.drop pos = ds →
    eat_bytes xs (ds.length + 1) pos = .err (.EOF xs.length) := by
  induction ds with
  | nil =>
    intro xs pos hpos h
    have hlen : xs.length = pos := by simpa using length_of_drop hpos h
    show eat_bytes xs (0 + 1) pos = _
    unfold eat_bytes
    rw [bind_err (eat_u8_eof (by omega))]
    rw [hlen]
  | cons d ds ih =>
    intro xs pos hpos h
    show eat_bytes xs (ds.length + 1 + 1) pos = _
    unfold eat_bytes
    rw [bind_ok (eat_u8_ok h)]
    have hlt := pos_lt_of_drop h
    rw [bind_err (ih (by omega) (drop_succ h))]

end Parser

namespace Parser

/-- The digit loop of `bigint` accumulates exactly
`sum + mult · digits_val ds` while advancing over the digits. -/
theorem bigint_go_ok (ds : List Nat) : ∀ {xs rest : List Nat} {pos : Nat} (sum mult : Int),
    xs.drop pos = ds ++ rest →
    bigint_go xs ds.length sum mult pos =
      .ok (sum + mult * digits_val ds) (pos + ds.length) := by
  induction ds with
  | nil =>
    intro xs rest pos sum mult _
    simp [bigint_go, digits_val]
  | cons d ds ih =>
    intro xs rest pos sum mult h
    have h1 : xs.drop pos = d :: (ds ++ rest) := by simpa using h
    show bigint_go xs (ds.length + 1) sum mult pos = _
    unfold bigint_go
    rw [bind_ok (eat_u8_ok h1), ih _ _ (drop_succ h1)]
    have hd : digits_val (d :: ds) = (d : Int) + 256 * digits_val ds := by
      simp [digits_val]
    have hpos : pos + 1 + ds.length = pos + (d :: ds).length := by
      simp
      omega
    rw [hd, hpos]
    congr 1
    ring

/-- The loop value is the spec's positional sum `Σ digit[i] · 256^i`. -/
theorem digits_val_eq_sum (ds : List Nat) :
    digits_val ds = ∑ i ∈ Finset.range ds.length, (ds.getD i 0 : Int) * 256 ^ i := by
  induction ds with
  | nil => simp [digits_val]
  | cons d ds ih =>
    have hd : digits_val (d :: ds) = (d : Int) + 256 * digits_val ds := by
      simp [digits_val]
    rw [hd, ih, List.length_cons, Finset.sum_range_succ']
    simp only [List.getD_cons_succ, List.getD_cons_zero, pow_zero, mul_one, pow_succ,
      ← mul_assoc]
    rw [← Finset.sum_mul]
    ring

/-- C6: decoding an arbitrary-precision integer with digit count `n` reads
one sign byte then `n` digit bytes in little-endian order and produces the
exact integer `Σ digit[i]·256^i`, negated exactly when the sign byte is 1;
digit bytes `[2, 1]` give `258` with sign 0 and `-258` with sign 1. -/
theorem bigint_decodes_exact :
    (∀ (s : Nat) (ds rest : List Nat),
      bigint (s :: (ds ++ rest)) ds.length 0 =
        .ok (.BigInt (if s = 1
            then -(∑ i ∈ Finset.range ds.length, (ds.getD i 0 : Int) * 256 ^ i)
            else ∑ i ∈ Finset.range ds.length, (ds.getD i 0 : Int) * 256 ^ i))
          (ds.length + 1)) ∧
    parse [131, 110, 2, 0, 2, 1] = .ok (.BigInt 258) 6 ∧
    parse [131, 110, 2, 1, 2, 1] = .ok (.BigInt (-258)) 6 := by
  refine ⟨?_, rfl, rfl⟩
  intro s ds rest
  unfold bigint
  have h0 : (s :: (ds ++ rest)).drop 0 = s :: (ds ++ rest) := rfl
  rw [bind_ok (eat_u8_ok h0)]
  rw [bind_ok (bigint_go_ok ds 0 1 (drop_succ h0))]
  simp only [zero_add, one_mul, digits_val_eq_sum]
  rw [Nat.add_comm 1 ds.length]
  by_cases hs : s = 1
  · rw [if_pos hs, if_pos hs, pure_run]
  · rw [if_neg hs, if_neg hs, pure_run]

/-- When every remaining byte keeps the continuation bit set and fewer
than `8 - i` of them remain, the varint loop consumes them all and stops
at the end of the buffer without tripping the budget. -/
theorem varint_go_all_cont (bs : List Nat) :
    ∀ {xs : List Nat} {fl i pos : Nat} (acc : List Nat),
    xs.drop pos = bs → pos ≤ xs.length → (∀ b ∈ bs, b &&& 128 ≠ 0) →
    i + bs.length ≤ 8 → bs.length < fl →
    varint_go xs fl acc i pos = (acc ++ bs, i + bs.length, pos + bs.length) := by
  induction bs with
  | nil =>
    intro xs fl i pos acc h hpos _ _ hfl
    have hlen : xs.length = pos := by simpa using length_of_drop hpos h
    cases fl with
    | zero => omega
    | succ fl' =>
      unfold varint_go
      rw [dif_neg (by omega)]
      simp
  | cons b bs ih =>
    intro xs fl i pos acc h hpos hcont hle hfl
    cases fl with
    | zero => omega
    | succ fl' =>
      have hlt := pos_lt_of_drop h
      rcases List.get?_eq_some.mp (get?_of_drop h) with ⟨hlt', hget⟩
      unfold varint_go
      rw [dif_pos ⟨hlt, by simp at hle ⊢; omega⟩]
      simp only [List.get_eq_getElem] at hget
      simp only [List.get_eq_getElem, hget]
      rw [if_neg (hcont b (by simp))]
      rw [ih (acc ++ [b]) (drop_succ h) (by omega) (fun x hx => hcont x (by simp [hx]))
        (by simp at hle ⊢; omega) (by simp at hfl ⊢; omega)]
      simp only [List.append_assoc, List.singleton_append, List.length_cons]
      refine congrArg₂ _ rfl (congrArg₂ _ (by omega) (by omega))

/-- C10: when the input ends with the continuation bit still set but fewer
than 8 continuation bytes consumed, `parse_varint` succeeds with the value
accumulated so far instead of reporting an error. -/
theorem varint_truncated_input_ok (bs : List Nat)
    (hcont : ∀ b ∈ bs, b &&& 128 ≠ 0) (hshort : bs.length < 8) :
    parse_varint bs 0 = .ok (varint_accum bs) bs.length := by
  unfold parse_varint
  rw [varint_go_all_cont bs [] (List.drop_zero bs) (by omega) hcont (by omega) (by omega)]
  rw [if_neg (by simp; omega)]
  simp

/-- Witness for C10 at the one-byte input `[0x80]`: the continuation bit
is set, the input ends, and the result is `Ok(0)` after one byte. -/
theorem varint_truncated_input_ok_witness :
    (∀ b ∈ [(128 : Nat)], b &&& 128 ≠ 0) ∧ ([(128 : Nat)].length < 8) ∧
    parse_varint [128] 0 = .ok 0 1 := by
  refine ⟨by decide, by decide, ?_⟩
  exact varint_truncated_input_ok [128] (by decide) (by decide)

/-- C1 (divergence): the first two spec examples hold, but on the 3-byte
varint `[0x80, 0x80, 0x01]` the accumulation `x = (x << 7·i) | (b & 0x7f)`
over the reversed bytes yields `2^21 = 2097152`, not the spec formula
`Σ (byte[i] & 0x7f)·128^i = 2^14 = 16384`: the shift distance grows with
the fold index instead of being 7 per byte. -/
theorem varint_accumulation_diverges :
    parse_varint [1] 0 = .ok 1 1 ∧
    parse_varint [172, 2] 0 = .ok 300 2 ∧
    parse_varint [128, 128, 1] 0 = .ok 2097152 3 ∧
    (128 &&& 127) * 128 ^ 0 + (128 &&& 127) * 128 ^ 1 + (1 &&& 127) * 128 ^ 2 = 16384 ∧
    (2097152 : Nat) ≠ 16384 := by
  refine ⟨rfl, rfl, rfl, by decide, by decide⟩

/-- C5 (counterexample): on the 9-byte input of 8 × `0xFF` then `0x7F`,
`parse_varint` does *not* succeed — the 8-byte budget is exhausted with
the continuation bit still set before the terminating byte is reached, so
it fails as oversized at the varint's starting offset. -/
theorem varint_nine_bytes_fails :
    parse_varint [255, 255, 255, 255, 255, 255, 255, 255, 127] 0 =
      .err (.VarintTooLarge 0) := rfl

/-- C5 (amended): both 9-byte inputs `8×0xFF, 0x7F` and `8×0xFF, 0x80`
fail as oversized, reporting offset 0 where the varint started; the
boundary sits one byte earlier, as the code's own tests record: the
8-byte input `7×0xFF, 0x7F` succeeds and `7×0xFF, 0x80` fails. -/
theorem varint_budget_boundary :
    parse_varint [255, 255, 255, 255, 255, 255, 255, 255, 127] 0 =
      .err (.VarintTooLarge 0) ∧
    parse_varint [255, 255, 255, 255, 255, 255, 255, 255, 128] 0 =
      .err (.VarintTooLarge 0) ∧
    parse_varint [255, 255, 255, 255, 255, 255, 255, 127] 0 =
      .ok 71494644084506751 8 ∧
    parse_varint [255, 255, 255, 255, 255, 255, 255, 128] 0 =
      .err (.VarintTooLarge 0) := by
  exact ⟨rfl, rfl, rfl, rfl⟩

/-- C3 (divergence): `Parser::atom` stores the decoded text directly in
the term it builds — parsing the small-atom encoding of `"ok"` produces
`Atom "ok"`, the `String`-carrying constructor `parser.rs` uses; no
symbol-table interning happens anywhere in the parser (its state is only
the buffer and the cursor).  This contradicts the claim (and the
`Atom { offset, length }` variant `bertterm.rs` declares together with
`Symtable::add`): the term was to hold only the handle, not the text. -/
theorem atom_term_holds_text :
    parse [131, 115, 2, 111, 107] = .ok (.Atom "ok") 5 ∧
    parse [131, 100, 0, 2, 111, 107] = .ok (.Atom "ok") 6 := by
  exact ⟨rfl, rfl⟩

/-- C4 (counterexample): the legacy-float form breaks the truncation
claim.  `[131, 99, 49, 53]` (text "15") is a well-formed encoding accepted
by `parse`; dropping its last byte *succeeds* (text "1") instead of
failing with an end-of-input error, and dropping one byte more fails with
the malformed-float kind, not end-of-input — `old_float` reads until NUL
or end of buffer and never reports EOF. -/
theorem truncated_old_float_not_eof :
    parse [131, 99, 49, 53] = .ok (.Float (.ofDec "15")) 4 ∧
    parse [131, 99, 49] = .ok (.Float (.ofDec "1")) 3 ∧
    parse [131, 99] = .err (.InvalidFloat 2) := by
  exact ⟨rfl, rfl, rfl⟩

end Parser

namespace Parser

/-! ### Inversion and cursor-bound lemmas -/

theorem bind_eq_ok {m : PM α} {f : α → PM β} {pos : Nat} {b : β} {p' : Nat}
    (h : (m >>= f) pos = .ok b p') :
    ∃ a q, m pos = .ok a q ∧ f a q = .ok b p' := by
  rw [bind_run] at h
  cases hm : m pos with
  | ok a q => rw [hm] at h; exact ⟨a, q, rfl, h⟩
  | err e => rw [hm] at h; cases h
  | oof => rw [hm] at h; cases h

theorem peek_ok_get {xs : List Nat} {pos b : Nat} (h : xs.get? pos = some b) :
    peek xs pos = .ok b pos := by
  rcases List.get?_eq_some.mp h with ⟨hlt, hget⟩
  unfold peek
  rw [dif_pos hlt]
  simp only [List.get_eq_getElem] at hget ⊢
  rw [hget]

theorem eat_u8_ok_get {xs : List Nat} {pos b : Nat} (h : xs.get? pos = some b) :
    eat_u8 xs pos = .ok b (pos + 1) := by
  unfold eat_u8
  rw [peek_ok_get h]

theorem eat_u8_ok_inv {xs : List Nat} {pos b p' : Nat}
    (h : eat_u8 xs pos = .ok b p') :
    xs.get? pos = some b ∧ p' = pos + 1 ∧ pos < xs.length := by
  unfold eat_u8 peek at h
  by_cases hlt : pos < xs.length
  · rw [dif_pos hlt] at h
    cases h
    exact ⟨by simp [List.get?_eq_get hlt], rfl, hlt⟩
  · rw [dif_neg hlt] at h
    cases h

theorem peek_ok_inv {xs : List Nat} {pos b p' : Nat}
    (h : peek xs pos = .ok b p') :
    p' = pos ∧ pos < xs.length ∧ xs.get? pos = some b := by
  unfold peek at h
  by_cases hlt : pos < xs.length
  · rw [dif_pos hlt] at h
    cases h
    exact ⟨rfl, hlt, by simp [List.get?_eq_get hlt]⟩
  · rw [dif_neg hlt] at h
    cases h

theorem magic_number_ok {xs : List Nat} {pos : Nat} (h : xs.get? pos = some 131) :
    magic_number xs pos = .ok () (pos + 1) := by
  unfold magic_number
  rw [bind_ok (getPos_run pos), bind_ok (eat_u8_ok_get h)]
  simp

theorem magic_number_not_131 {xs : List Nat} {pos b : Nat}
    (hb : xs.get? pos = some b) (hne : b ≠ 131) :
    magic_number xs pos = .err (.InvalidMagicNumber pos) := by
  unfold magic_number
  rw [bind_ok (getPos_run pos), bind_ok (eat_u8_ok_get hb)]
  rw [if_pos hne]
  simp

theorem magic_number_ok_inv {xs : List Nat} {pos p' : Nat} {u : Unit}
    (h : magic_number xs pos = .ok u p') :
    xs.get? pos = some 131 ∧ p' = pos + 1 := by
  unfold magic_number at h
  rw [bind_ok (getPos_run pos)] at h
  rcases bind_eq_ok h with ⟨b, q, hb, hrest⟩
  rcases eat_u8_ok_inv hb with ⟨hget, hq, _⟩
  by_cases h131 : b = 131
  · subst h131 hq
    rw [if_neg (by simp)] at hrest
    rw [pure_run] at hrest
    cases hrest
    exact ⟨hget, rfl⟩
  · rw [if_pos h131] at hrest
    rw [fail_run] at hrest
    cases hrest

/-! ### `Bounded` closure under the combinators -/

theorem bounded_pure (xs : List Nat) (a : α) : Bounded xs (Pure.pure a) := by
  intro pos b p' hpos h
  rw [pure_run] at h
  cases h
  exact ⟨Nat.le_refl _, hpos⟩

theorem bounded_fail (xs : List Nat) (e : BertError) : Bounded xs (fail e : PM α) := by
  intro pos b p' _ h
  rw [fail_run] at h
  cases h

theorem bounded_getPos (xs : List Nat) : Bounded xs getPos := by
  intro pos b p' hpos h
  rw [getPos_run] at h
  cases h
  exact ⟨Nat.le_refl _, hpos⟩

theorem bounded_eof (xs : List Nat) : Bounded xs (eof xs) := by
  intro pos b p' hpos h
  rw [eof_run] at h
  cases h
  exact ⟨Nat.le_refl _, hpos⟩

theorem bounded_peek (xs : List Nat) : Bounded xs (peek xs) := by
  intro pos b p' hpos h
  rcases peek_ok_inv h with ⟨hp, _, _⟩
  subst hp
  exact ⟨Nat.le_refl _, hpos⟩

theorem bounded_eat_u8 (xs : List Nat) : Bounded xs (eat_u8 xs) := by
  intro pos b p' _ h
  rcases eat_u8_ok_inv h with ⟨_, hp, hlt⟩
  subst hp
  exact ⟨Nat.le_succ _, by omega⟩

theorem bounded_bind {xs : List Nat} {m : PM α} {f : α → PM β}
    (hm : Bounded xs m) (hf : ∀ a, Bounded xs (f a)) : Bounded xs (m >>= f) := by
  intro pos b p' hpos h
  rw [bind_run] at h
  cases hma : m pos with
  | ok a q =>
    rw [hma] at h
    rcases hm pos a q hpos hma with ⟨h1, h2⟩
    rcases hf a q b p' h2 h with ⟨h3, h4⟩
    exact ⟨Nat.le_trans h1 h3, h4⟩
  | err e => rw [hma] at h; cases h
  | oof => rw [hma] at h; cases h

theorem bounded_eat_char (xs : List Nat) : Bounded xs (eat_char xs) :=
  bounded_bind (bounded_eat_u8 xs) (fun _ => bounded_pure xs _)

theorem bounded_eat_u16_be (xs : List Nat) : Bounded xs (eat_u16_be xs) :=
  bounded_bind (bounded_eat_u8 xs) fun _ =>
    bounded_bind (bounded_eat_u8 xs) fun _ => bounded_pure xs _

theorem bounded_eat_u32_be (xs : List Nat) : Bounded xs (eat_u32_be xs) :=
  bounded_bind (bounded_eat_u8 xs) fun _ =>
    bounded_bind (bounded_eat_u8 xs) fun _ =>
      bounded_bind (bounded_eat_u8 xs) fun _ =>
        bounded_bind (bounded_eat_u8 xs) fun _ => bounded_pure xs _

theorem bounded_eat_i32_be (xs : List Nat) : Bounded xs (eat_i32_be xs) :=
  bounded_bind (bounded_eat_u8 xs) fun _ =>
    bounded_bind (bounded_eat_u8 xs) fun _ =>
      bounded_bind (bounded_eat_u8 xs) fun _ =>
        bounded_bind (bounded_eat_u8 xs) fun _ => bounded_pure xs _

theorem bounded_eat_u64_be (xs : List Nat) : Bounded xs (eat_u64_be xs) :=
  bounded_bind (bounded_eat_u8 xs) fun _ =>
    bounded_bind (bounded_eat_u8 xs) fun _ =>
      bounded_bind (bounded_eat_u8 xs) fun _ =>
        bounded_bind (bounded_eat_u8 xs) fun _ =>
          bounded_bind (bounded_eat_u8 xs) fun _ =>
            bounded_bind (bounded_eat_u8 xs) fun _ =>
              bounded_bind (bounded_eat_u8 xs) fun _ =>
                bounded_bind (bounded_eat_u8 xs) fun _ => bounded_pure xs _

theorem bounded_eat_bytes (xs : List Nat) : ∀ n, Bounded xs (eat_bytes xs n) := by
  intro n
  induction n with
  | zero => exact bounded_pure xs _
  | succ n ih =>
    exact bounded_bind (bounded_eat_u8 xs) fun _ =>
      bounded_bind ih fun _ => bounded_pure xs _

theorem bounded_ite {xs : List Nat} {m1 m2 : PM α} (cond : Prop) [Decidable cond]
    (h1 : Bounded xs m1) (h2 : Bounded xs m2) :
    Bounded xs (if cond then m1 else m2) := by
  by_cases hc : cond
  · rwa [if_pos hc]
  · rwa [if_neg hc]

theorem bounded_of_text (xs : List Nat) : ∀ fl s, Bounded xs (of_text xs fl s) := by
  intro fl
  induction fl with
  | zero => intro s pos a p' _ h; cases h
  | succ fl ih =>
    intro s
    refine bounded_bind (bounded_eof xs) fun e => ?_
    refine bounded_ite _ (bounded_pure xs _) ?_
    refine bounded_bind (bounded_peek xs) fun b => ?_
    refine bounded_ite _ ?_ (bounded_pure xs _)
    exact bounded_bind (bounded_eat_char xs) fun ch => ih _

theorem bounded_of_zeros (xs : List Nat) : ∀ fl, Bounded xs (of_zeros xs fl) := by
  intro fl
  induction fl with
  | zero => intro pos a p' _ h; cases h
  | succ fl ih =>
    refine bounded_bind (bounded_eof xs) fun e => ?_
    refine bounded_ite _ (bounded_pure xs _) ?_
    refine bounded_bind (bounded_peek xs) fun b => ?_
    refine bounded_ite _ ?_ (bounded_pure xs _)
    exact bounded_bind (bounded_eat_u8 xs) fun _ => ih

theorem bounded_old_float (xs : List Nat) : Bounded xs (old_float xs) := by
  refine bounded_bind (bounded_getPos xs) fun offset => ?_
  refine bounded_bind (bounded_of_text xs _ _) fun s => ?_
  refine bounded_bind (bounded_of_zeros xs _) fun _ => ?_
  exact bounded_ite _ (bounded_pure xs _) (bounded_fail xs _)

theorem bounded_new_float (xs : List Nat) : Bounded xs (new_float xs) :=
  bounded_bind (bounded_eat_u64_be xs) fun _ => bounded_pure xs _

theorem bounded_atom (xs : List Nat) (len : Nat) : Bounded xs (atom xs len) := by
  refine bounded_bind (bounded_getPos xs) fun _ => ?_
  refine bounded_bind (bounded_eat_bytes xs len) fun bytes => ?_
  exact bounded_ite _ (bounded_pure xs _) (bounded_pure xs _)

theorem bounded_atom_utf8 (xs : List Nat) (len : Nat) : Bounded xs (atom_utf8 xs len) := by
  refine bounded_bind (bounded_getPos xs) fun _ => ?_
  refine bounded_bind (bounded_eat_bytes xs len) fun buf => ?_
  cases utf8_decode buf with
  | some cs => exact bounded_pure xs _
  | none => exact bounded_fail xs _

theorem bounded_small_integer (xs : List Nat) : Bounded xs (small_integer xs) :=
  bounded_bind (bounded_eat_u8 xs) fun _ => bounded_pure xs _

theorem bounded_integer (xs : List Nat) : Bounded xs (integer xs) :=
  bounded_bind (bounded_eat_i32_be xs) fun _ => bounded_pure xs _

theorem bounded_string (xs : List Nat) : Bounded xs (Parser.string xs) :=
  bounded_bind (bounded_eat_u16_be xs) fun len =>
    bounded_bind (bounded_eat_bytes xs len) fun _ => bounded_pure xs _

theorem bounded_binary (xs : List Nat) : Bounded xs (binary xs) :=
  bounded_bind (bounded_eat_u32_be xs) fun len =>
    bounded_bind (bounded_eat_bytes xs len) fun _ => bounded_pure xs _

theorem bounded_bigint_go (xs : List Nat) :
    ∀ n sum mult, Bounded xs (bigint_go xs n sum mult) := by
  intro n
  induction n with
  | zero => intro sum mult; exact bounded_pure xs _
  | succ n ih =>
    intro sum mult
    exact bounded_bind (bounded_eat_u8 xs) fun d => ih _ _

theorem bounded_bigint (xs : List Nat) (len : Nat) : Bounded xs (bigint xs len) := by
  refine bounded_bind (bounded_eat_u8 xs) fun sign => ?_
  refine bounded_bind (bounded_bigint_go xs len 0 1) fun sum => ?_
  exact bounded_ite _ (bounded_pure xs _) (bounded_pure xs _)

theorem bounded_run_terms {xs : List Nat} {p : PM BertTerm} (hp : Bounded xs p) :
    ∀ n, Bounded xs (run_terms p n) := by
  intro n
  induction n with
  | zero => exact bounded_pure xs _
  | succ n ih =>
    exact bounded_bind hp fun t => bounded_bind ih fun ts => bounded_pure xs _

theorem bounded_run_pairs {xs : List Nat} {p : PM BertTerm} (hp : Bounded xs p) :
    ∀ n, Bounded xs (run_pairs p n) := by
  intro n
  induction n with
  | zero => exact bounded_pure xs _
  | succ n ih =>
    exact bounded_bind hp fun k =>
      bounded_bind hp fun v => bounded_bind ih fun kvs => bounded_pure xs _

theorem bounded_tuple {xs : List Nat} {p : PM BertTerm} (hp : Bounded xs p) (len : Nat) :
    Bounded xs (tuple p len) :=
  bounded_bind (bounded_run_terms hp len) fun _ => bounded_pure xs _

theorem bounded_list {xs : List Nat} {p : PM BertTerm} (hp : Bounded xs p) :
    Bounded xs (Parser.list xs p) := by
  refine bounded_bind (bounded_eat_u32_be xs) fun len => ?_
  refine bounded_bind (bounded_run_terms hp len) fun ts => ?_
  refine bounded_bind hp fun tl => ?_
  cases tl <;> exact bounded_pure xs _

theorem bounded_map {xs : List Nat} {p : PM BertTerm} (hp : Bounded xs p) :
    Bounded xs (Parser.map xs p) :=
  bounded_bind (bounded_eat_u32_be xs) fun len =>
    bounded_bind (bounded_run_pairs hp len) fun _ => bounded_pure xs _

theorem bounded_magic_number (xs : List Nat) : Bounded xs (magic_number xs) := by
  refine bounded_bind (bounded_getPos xs) fun offset => ?_
  refine bounded_bind (bounded_eat_u8 xs) fun magic => ?_
  exact bounded_ite _ (bounded_fail xs _) (bounded_pure xs _)

/-- The varint loop never moves the cursor backwards or past the end. -/
theorem varint_go_cursor (xs : List Nat) :
    ∀ (fl : Nat) (acc : List Nat) (i pos : Nat), pos ≤ xs.length →
      pos ≤ (varint_go xs fl acc i pos).2.2 ∧ (varint_go xs fl acc i pos).2.2 ≤ xs.length := by
  intro fl
  induction fl with
  | zero => intro acc i pos hpos; exact ⟨Nat.le_refl _, hpos⟩
  | succ fl ih =>
    intro acc i pos hpos
    unfold varint_go
    by_cases hc : pos < xs.length ∧ i < 8
    · rw [dif_pos hc]
      by_cases hb : xs.get ⟨pos, hc.1⟩ &&& 128 = 0
      · rw [if_pos hb]
        refine ⟨Nat.le_succ _, ?_⟩
        show pos + 1 ≤ xs.length
        omega
      · rw [if_neg hb]
        rcases ih (acc ++ [xs.get ⟨pos, hc.1⟩]) (i + 1) (pos + 1) (by omega) with ⟨h1, h2⟩
        exact ⟨by omega, h2⟩
    · rw [dif_neg hc]
      exact ⟨Nat.le_refl _, hpos⟩

theorem bounded_parse_varint (xs : List Nat) : Bounded xs (parse_varint xs) := by
  intro pos a p' hpos h
  unfold parse_varint at h
  by_cases hc : 8 ≤ (varint_go xs 9 [] 0 pos).2.1
  · rw [if_pos hc] at h
    cases h
  · rw [if_neg hc] at h
    cases h
    exact varint_go_cursor xs 9 [] 0 pos hpos

/-- The cursor invariant for the whole recursive term parser. -/
theorem bounded_bert_term (xs : List Nat) : ∀ fuel, Bounded xs (bert_term xs fuel) := by
  intro fuel
  induction fuel with
  | zero => intro pos a p' _ h; cases h
  | succ fl ih =>
    refine bounded_bind (bounded_getPos xs) fun offset => ?_
    refine bounded_bind (bounded_eat_u8 xs) fun tag => ?_
    show Bounded xs _
    split
    · exact bounded_small_integer xs
    · exact bounded_integer xs
    · exact bounded_old_float xs
    · exact bounded_new_float xs
    · exact bounded_bind (bounded_eat_u16_be xs) fun len => bounded_atom xs len
    · exact bounded_bind (bounded_eat_u8 xs) fun len => bounded_atom xs len
    · exact bounded_bind (bounded_eat_u16_be xs) fun len => bounded_atom_utf8 xs len
    · exact bounded_bind (bounded_eat_u8 xs) fun len => bounded_atom_utf8 xs len
    · exact bounded_bind (bounded_eat_u8 xs) fun len => bounded_tuple ih len
    · exact bounded_bind (bounded_eat_u32_be xs) fun len => bounded_tuple ih len
    · exact bounded_pure xs _
    · exact bounded_list ih
    · exact bounded_string xs
    · exact bounded_binary xs
    · exact bounded_bind (bounded_eat_u8 xs) fun len => bounded_bigint xs len
    · exact bounded_bind (bounded_eat_u32_be xs) fun len => bounded_bigint xs len
    · exact bounded_map ih
    · exact bounded_fail xs _

end Parser

namespace Parser

theorem bounded_parse_bert2_go (xs : List Nat) : ∀ fl, Bounded xs (parse_bert2_go xs fl) := by
  intro fl
  induction fl with
  | zero => intro pos a p' _ h; cases h
  | succ fl ih =>
    refine bounded_bind (bounded_eof xs) fun e => ?_
    refine bounded_ite _ (bounded_pure xs _) ?_
    refine bounded_bind (bounded_parse_varint xs) fun _ => ?_
    refine bounded_bind (bounded_magic_number xs) fun _ => ?_
    refine bounded_bind (bounded_bert_term xs _) fun t => ?_
    exact bounded_bind ih fun ts => bounded_pure xs _

/-- Full characterisation of a successful `parse`: the marker must be the
first byte, the term must be parsed, and the cursor must land exactly on
the end of the buffer. -/
theorem parse_ok_iff {xs : List Nat} {t : BertTerm} {p : Nat} :
    parse xs = .ok t p ↔
      (xs.get? 0 = some 131 ∧ bert_term xs (xs.length + 1) 1 = .ok t xs.length ∧
        p = xs.length) := by
  constructor
  · intro h
    unfold parse at h
    rcases bind_eq_ok h with ⟨u, q1, hmagic, h2⟩
    rcases magic_number_ok_inv hmagic with ⟨h131, hq1⟩
    subst hq1
    rcases bind_eq_ok h2 with ⟨term, q2, hbt, h3⟩
    rcases bind_eq_ok h3 with ⟨e, q3, heof, h4⟩
    rw [eof_run] at heof
    cases heof
    have h1len : (0 : Nat) + 1 ≤ xs.length := by
      rcases List.get?_eq_some.mp h131 with ⟨hlt, _⟩
      omega
    rcases bounded_bert_term xs (xs.length + 1) (0 + 1) term q2 (by omega) hbt
      with ⟨hle1, hle2⟩
    by_cases hfull : xs.length ≤ q2
    · rw [if_pos (by simpa using hfull)] at h4
      rw [pure_run] at h4
      injection h4 with hterm hpos
      have hq2 : q2 = xs.length := by omega
      refine ⟨h131, ?_, by omega⟩
      rw [hbt, hterm, hq2]
    · rw [if_neg (by simpa using hfull)] at h4
      rw [bind_ok (getPos_run q2), fail_run] at h4
      cases h4
  · rintro ⟨h131, hbt, hp⟩
    subst hp
    unfold parse
    rw [bind_ok (magic_number_ok h131)]
    rw [bind_ok (show bert_term xs (xs.length + 1) (0 + 1) = .ok t xs.length from hbt)]
    rw [bind_ok (eof_run xs xs.length)]
    rw [if_pos (by simp)]
    rw [pure_run]

/-- C8: `parse` succeeds exactly on `marker ++ one complete term` with the
cursor consuming the whole buffer; a non-marker first byte fails as
`InvalidMagicNumber` at offset 0; leftover bytes after the term fail as
`ExtraData` positioned at the first unconsumed byte. -/
theorem parse_contract :
    (∀ (xs : List Nat) (t : BertTerm) (p : Nat),
      parse xs = .ok t p ↔
        (xs.get? 0 = some 131 ∧ bert_term xs (xs.length + 1) 1 = .ok t xs.length ∧
          p = xs.length)) ∧
    (∀ (xs : List Nat) (b : Nat), xs.get? 0 = some b → b ≠ 131 →
      parse xs = .err (.InvalidMagicNumber 0)) ∧
    (∀ (xs : List Nat) (t : BertTerm) (q : Nat), xs.get? 0 = some 131 →
      bert_term xs (xs.length + 1) 1 = .ok t q → q < xs.length →
      parse xs = .err (.ExtraData q)) := by
  refine ⟨fun xs t p => parse_ok_iff, ?_, ?_⟩
  · intro xs b hb hne
    unfold parse
    rw [bind_err (magic_number_not_131 hb hne)]
  · intro xs t q h131 hbt hq
    unfold parse
    rw [bind_ok (magic_number_ok h131)]
    rw [bind_ok (show bert_term xs (xs.length + 1) (0 + 1) = .ok t q from hbt)]
    rw [bind_ok (eof_run xs q)]
    rw [if_neg (by simpa using Nat.not_le.mpr hq)]
    rw [bind_ok (getPos_run q), fail_run]

/-- Witness for C8: a complete small-integer encoding satisfies the iff in
both directions, a wrong marker fails at offset 0, and a trailing byte
fails as `ExtraData` at its position. -/
theorem parse_contract_witness :
    parse [131, 97, 5] = .ok (.Int 5) 3 ∧
    parse [42] = .err (.InvalidMagicNumber 0) ∧
    parse [131, 97, 5, 0] = .err (.ExtraData 3) := by
  refine ⟨?_, ?_, ?_⟩
  · exact (parse_contract.1 [131, 97, 5] (.Int 5) 3).mpr ⟨rfl, rfl, rfl⟩
  · exact parse_contract.2.1 [42] 42 rfl (by decide)
  · exact parse_contract.2.2 [131, 97, 5, 0] (.Int 5) 3 rfl rfl (by decide)

/-- C9: every byte access goes through `peek`, which answers the
positioned end-of-input error instead of indexing once the cursor reaches
the buffer length, and otherwise returns the byte actually under the
cursor; successful runs of the recursive term parser (hence of `parse`
and `parse_bert2`) keep the cursor within the buffer. -/
theorem cursor_stays_in_bounds :
    (∀ (xs : List Nat) (pos : Nat), xs.length ≤ pos → peek xs pos = .err (.EOF pos)) ∧
    (∀ (xs : List Nat) (pos b p' : Nat), peek xs pos = .ok b p' →
      p' = pos ∧ pos < xs.length ∧ xs.get? pos = some b) ∧
    (∀ (xs : List Nat) (fuel pos : Nat) (t : BertTerm) (p' : Nat), pos ≤ xs.length →
      bert_term xs fuel pos = .ok t p' → pos ≤ p' ∧ p' ≤ xs.length) ∧
    (∀ (xs : List Nat) (t : BertTerm) (p' : Nat), parse xs = .ok t p' →
      p' ≤ xs.length) ∧
    (∀ (xs : List Nat) (ts : List BertTerm) (p' : Nat), parse_bert2 xs = .ok ts p' →
      p' ≤ xs.length) := by
  refine ⟨fun xs pos h => peek_eof h, fun xs pos b p' h => peek_ok_inv h,
    fun xs fuel pos t p' hpos h => bounded_bert_term xs fuel pos t p' hpos h, ?_, ?_⟩
  · intro xs t p' h
    rcases parse_ok_iff.mp h with ⟨_, _, hp⟩
    omega
  · intro xs ts p' h
    unfold parse_bert2 at h
    rcases bind_eq_ok h with ⟨terms, q, hgo, h2⟩
    rcases bounded_parse_bert2_go xs (xs.length + 1) 0 terms q (by omega) hgo
      with ⟨_, hqlen⟩
    rcases bind_eq_ok h2 with ⟨e, q2, heof, h3⟩
    rw [eof_run] at heof
    cases heof
    by_cases he : xs.length ≤ q
    · rw [if_pos (by simpa using he)] at h3
      rw [pure_run] at h3
      cases h3
      omega
    · rw [if_neg (by simpa using he)] at h3
      rw [bind_ok (getPos_run q), fail_run] at h3
      cases h3

/-- Witness for C9 at a concrete run: the tag read of `[131, 97, 5]` from
cursor 1 succeeds and both bounds hold. -/
theorem cursor_stays_in_bounds_witness :
    (1 ≤ ([131, 97, 5] : List Nat).length) ∧
    bert_term [131, 97, 5] 4 1 = .ok (.Int 5) 3 ∧
    (1 ≤ 3 ∧ 3 ≤ ([131, 97, 5] : List Nat).length) := by
  refine ⟨by decide, rfl, ?_⟩
  exact cursor_stays_in_bounds.2.2.1 [131, 97, 5] 4 1 (.Int 5) 3 (by decide) rfl

/-- The element loop returns exactly the requested number of terms. -/
theorem run_terms_length {p : PM BertTerm} :
    ∀ {n pos : Nat} {ts : List BertTerm} {p2 : Nat},
    run_terms p n pos = .ok ts p2 → ts.length = n := by
  intro n
  induction n with
  | zero =>
    intro pos ts p2 h
    unfold run_terms at h
    rw [pure_run] at h
    cases h
    rfl
  | succ n ih =>
    intro pos ts p2 h
    unfold run_terms at h
    rcases bind_eq_ok h with ⟨t, q, hp, h2⟩
    rcases bind_eq_ok h2 with ⟨ts', q2, hts, h3⟩
    rw [pure_run] at h3
    cases h3
    simp [ih hts]

/-- C2: `Parser::list` reads the 4-byte big-endian count, parses exactly
that many elements, then one mandatory tail term; a `Nil` tail yields
exactly the declared elements, any other tail is appended as one extra
trailing element.  The two concrete runs show a proper and an improper
list. -/
theorem list_decodes_elements_and_tail :
    (∀ (xs : List Nat) (p : PM BertTerm) (pos n p1 p2 p3 : Nat) (ts : List BertTerm)
        (tl : BertTerm),
      eat_u32_be xs pos = .ok n p1 →
      run_terms p n p1 = .ok ts p2 →
      p p2 = .ok tl p3 →
      ts.length = n ∧
      Parser.list xs p pos = .ok (.List (if tl.isNil then ts else ts ++ [tl])) p3) ∧
    parse [131, 108, 0, 0, 0, 1, 97, 5, 106] = .ok (.List [.Int 5]) 9 ∧
    parse [131, 108, 0, 0, 0, 1, 97, 5, 97, 7] = .ok (.List [.Int 5, .Int 7]) 10 := by
  refine ⟨?_, rfl, rfl⟩
  intro xs p pos n p1 p2 p3 ts tl h1 h2 h3
  refine ⟨run_terms_length h2, ?_⟩
  unfold list
  rw [bind_ok h1, bind_ok h2, bind_ok h3]
  cases tl <;> simp [BertTerm.isNil]

/-- Witness for C2 on the improper-list bytes
`[131, 108, 0,0,0,1, 97, 5, 97, 7]`: count 1, element `Int 5`, non-`Nil`
tail `Int 7` appended. -/
theorem list_decodes_elements_and_tail_witness :
    eat_u32_be [131, 108, 0, 0, 0, 1, 97, 5, 97, 7] 2 = .ok 1 6 ∧
    run_terms (bert_term [131, 108, 0, 0, 0, 1, 97, 5, 97, 7] 10) 1 6 =
      .ok [.Int 5] 8 ∧
    bert_term [131, 108, 0, 0, 0, 1, 97, 5, 97, 7] 10 8 = .ok (.Int 7) 10 ∧
    Parser.list [131, 108, 0, 0, 0, 1, 97, 5, 97, 7]
        (bert_term [131, 108, 0, 0, 0, 1, 97, 5, 97, 7] 10) 2 =
      .ok (.List [.Int 5, .Int 7]) 10 := by
  refine ⟨rfl, rfl, rfl, ?_⟩
  exact (list_decodes_elements_and_tail.1 [131, 108, 0, 0, 0, 1, 97, 5, 97, 7]
    (bert_term [131, 108, 0, 0, 0, 1, 97, 5, 97, 7] 10) 2 1 6 8 10 [.Int 5]
    (.Int 7) rfl rfl rfl).2

end Parser

/-! ### Renderer layout lemmas (claim C7) -/

theorem write_elems_nil (pp : PrettyPrinter) (pref : String) (d : Nat) (comma : String) :
    PrettyPrinter.write_elems pp pref d comma [] = "" := by
  unfold PrettyPrinter.write_elems
  rfl

theorem write_elems_cons_eq (pp : PrettyPrinter) (pref : String) (d : Nat) :
    ∀ (ts : List BertTerm) (t : BertTerm) (comma : String),
    PrettyPrinter.write_elems pp pref d comma (t :: ts) =
      comma ++ sep_by ", " ((t :: ts).map fun u => pref ++ pp.write_term u (d + 1)) := by
  intro ts
  induction ts with
  | nil =>
    intro t comma
    unfold PrettyPrinter.write_elems
    rw [write_elems_nil]
    simp [sep_by, String.append_assoc, String.append_empty]
  | cons t' ts' ih =>
    intro t comma
    unfold PrettyPrinter.write_elems
    rw [show (PrettyPrinter.write_elems pp pref d ", " (t' :: ts')) = _ from ih t' ", "]
    simp only [List.map_cons, sep_by, String.append_assoc]

theorem write_pairs_nil (pp : PrettyPrinter) (pref : String) (d : Nat) (comma : String)
    (vs : List BertTerm) :
    PrettyPrinter.write_pairs pp pref d comma [] vs = "" := by
  unfold PrettyPrinter.write_pairs
  rfl

theorem write_pairs_cons_eq (pp : PrettyPrinter) (pref : String) (d : Nat) :
    ∀ (pairs : List (BertTerm × BertTerm)) (k v : BertTerm) (comma : String),
    PrettyPrinter.write_pairs pp pref d comma
        (k :: pairs.map Prod.fst) (v :: pairs.map Prod.snd) =
      comma ++ sep_by ", " (((k, v) :: pairs).map fun q =>
        pref ++ (pp.write_term q.1 (d + 1) ++ " => " ++ pp.write_term q.2 (d + 1))) := by
  intro pairs
  induction pairs with
  | nil =>
    intro k v comma
    unfold PrettyPrinter.write_pairs
    simp [write_pairs_nil, sep_by, String.append_assoc, String.append_empty]
  | cons q pairs ih =>
    intro k v comma
    unfold PrettyPrinter.write_pairs
    simp only [List.map_cons]
    rw [ih q.1 q.2 ", "]
    simp only [List.map_cons, sep_by, String.append_assoc]

theorem is_small_collection_iff (pp : PrettyPrinter) (ts : List BertTerm) :
    pp.is_small_collection ts = true ↔
      (ts.length ≤ pp.max_terms_per_line ∧ ∀ t ∈ ts, t.is_basic = true) := by
  simp [PrettyPrinter.is_small_collection, List.all_eq_true]

theorem indentation_eq (pp : PrettyPrinter) (k : Nat) :
    pp.indentation k = "\n" ++ spaces (k * pp.indent_width) := rfl

/-- C7: a Tuple or List node renders through `write_collection`, which is
inline — elements joined by `", "` — exactly when the element count is at
most `max_terms_per_line` and every element is basic, and otherwise
multi-line with each element behind a newline and `(depth+1)·indent_width`
spaces and the closing delimiter behind a newline and
`depth·indent_width` spaces; a Map node is inline exactly when the same
rule holds for its keys and, separately, for its values. -/
theorem collection_layout_rule :
    (∀ (pp : PrettyPrinter) (ts : List BertTerm) (d : Nat),
      pp.write_term (.Tuple ts) d = pp.write_collection ts d '\x7b' '\x7d') ∧
    (∀ (pp : PrettyPrinter) (ts : List BertTerm) (d : Nat),
      pp.write_term (.List ts) d = pp.write_collection ts d '[' ']') ∧
    (∀ (pp : PrettyPrinter) (ks vs : List BertTerm) (d : Nat),
      pp.write_term (.Map ks vs) d = pp.write_map ks vs d) ∧
    (∀ (pp : PrettyPrinter) (ts : List BertTerm) (d : Nat) (opn cls : Char),
      pp.write_collection ts d opn cls =
        if ts.length ≤ pp.max_terms_per_line ∧ (∀ t ∈ ts, t.is_basic = true) then
          String.singleton opn ++
            sep_by ", " (ts.map fun t => pp.write_term t (d + 1)) ++
            String.singleton cls
        else
          String.singleton opn ++
            sep_by ", " (ts.map fun t =>
              "\n" ++ spaces ((d + 1) * pp.indent_width) ++ pp.write_term t (d + 1)) ++
            ("\n" ++ spaces (d * pp.indent_width)) ++ String.singleton cls) ∧
    (∀ (pp : PrettyPrinter) (pairs : List (BertTerm × BertTerm)) (d : Nat),
      pp.write_map (pairs.map Prod.fst) (pairs.map Prod.snd) d =
        if ((pairs.map Prod.fst).length ≤ pp.max_terms_per_line ∧
              (∀ t ∈ pairs.map Prod.fst, t.is_basic = true)) ∧
           ((pairs.map Prod.snd).length ≤ pp.max_terms_per_line ∧
              (∀ t ∈ pairs.map Prod.snd, t.is_basic = true)) then
          "#\x7b" ++
            sep_by ", " (pairs.map fun q =>
              pp.write_term q.1 (d + 1) ++ " => " ++ pp.write_term q.2 (d + 1)) ++
            "\x7d"
        else
          "#\x7b" ++
            sep_by ", " (pairs.map fun q =>
              "\n" ++ spaces ((d + 1) * pp.indent_width) ++
                (pp.write_term q.1 (d + 1) ++ " => " ++ pp.write_term q.2 (d + 1))) ++
            ("\n" ++ spaces (d * pp.indent_width)) ++ "\x7d") := by
  have hnil : ∀ s : String, "" ++ s = s := fun _ => rfl
  refine ⟨?_, ?_, ?_, ?_, ?_⟩
  · intro pp ts d
    simp [PrettyPrinter.write_term]
  · intro pp ts d
    simp [PrettyPrinter.write_term]
  · intro pp ks vs d
    simp [PrettyPrinter.write_term]
  · intro pp ts d opn cls
    unfold PrettyPrinter.write_collection
    by_cases hs : ts.length ≤ pp.max_terms_per_line ∧ ∀ t ∈ ts, t.is_basic = true
    · rw [if_pos hs]
      rw [(is_small_collection_iff pp ts).mpr hs]
      simp only [Bool.not_true, Bool.false_eq_true, if_false]
      cases ts with
      | nil => simp [write_elems_nil, sep_by, String.append_empty]
      | cons t ts =>
        rw [write_elems_cons_eq]
        simp [hnil, String.append_assoc]
    · rw [if_neg hs]
      have hb : pp.is_small_collection ts = false := by
        cases hb0 : pp.is_small_collection ts with
        | false => rfl
        | true => exact absurd ((is_small_collection_iff pp ts).mp hb0) hs
      rw [hb]
      simp only [Bool.not_false, if_true]
      cases ts with
      | nil =>
        exact absurd ⟨by simp, by simp⟩ hs
      | cons t ts =>
        rw [write_elems_cons_eq]
        rw [indentation_eq, indentation_eq]
        simp [hnil, String.append_assoc]
  · intro pp pairs d
    unfold PrettyPrinter.write_map
    by_cases hs : ((pairs.map Prod.fst).length ≤ pp.max_terms_per_line ∧
        (∀ t ∈ pairs.map Prod.fst, t.is_basic = true)) ∧
        ((pairs.map Prod.snd).length ≤ pp.max_terms_per_line ∧
        (∀ t ∈ pairs.map Prod.snd, t.is_basic = true))
    · rw [if_pos hs]
      rw [(is_small_collection_iff pp _).mpr hs.1, (is_small_collection_iff pp _).mpr hs.2]
      simp only [Bool.not_true, Bool.false_or, Bool.false_eq_true, if_false]
      cases pairs with
      | nil => simp [write_pairs_nil, sep_by, String.append_empty]
      | cons q pairs =>
        simp only [List.map_cons]
        rw [write_pairs_cons_eq]
        simp [hnil, String.append_assoc]
    · rw [if_neg hs]
      have hb : (!pp.is_small_collection (pairs.map Prod.fst) ||
          !pp.is_small_collection (pairs.map Prod.snd)) = true := by
        cases h1 : pp.is_small_collection (pairs.map Prod.fst) with
        | false => simp [h1]
        | true =>
          cases h2 : pp.is_small_collection (pairs.map Prod.snd) with
          | false => simp [h2]
          | true => exact absurd ⟨(is_small_collection_iff pp _).mp h1,
              (is_small_collection_iff pp _).mp h2⟩ hs
      rw [hb]
      simp only [if_true]
      cases pairs with
      | nil => exact absurd ⟨⟨by simp, by simp⟩, ⟨by simp, by simp⟩⟩ hs
      | cons q pairs =>
        simp only [List.map_cons]
        rw [write_pairs_cons_eq]
        rw [indentation_eq, indentation_eq]
        simp [hnil, String.append_assoc]

namespace Parser

/-! ### Stepping through the tag dispatch (`bert_term`) -/

theorem step_97 {xs tl0 : List Nat} {pos fl : Nat} (h : xs.drop pos = 97 :: tl0) :
    bert_term xs (fl + 1) pos = small_integer xs (pos + 1) := by
  unfold bert_term
  rw [bind_ok (getPos_run pos), bind_ok (eat_u8_ok h)]

theorem step_98 {xs tl0 : List Nat} {pos fl : Nat} (h : xs.drop pos = 98 :: tl0) :
    bert_term xs (fl + 1) pos = integer xs (pos + 1) := by
  unfold bert_term
  rw [bind_ok (getPos_run pos), bind_ok (eat_u8_ok h)]

theorem step_70 {xs tl0 : List Nat} {pos fl : Nat} (h : xs.drop pos = 70 :: tl0) :
    bert_term xs (fl + 1) pos = new_float xs (pos + 1) := by
  unfold bert_term
  rw [bind_ok (getPos_run pos), bind_ok (eat_u8_ok h)]

theorem step_100 {xs tl0 : List Nat} {pos fl : Nat} (h : xs.drop pos = 100 :: tl0) :
    bert_term xs (fl + 1) pos =
      (do let len ← eat_u16_be xs; atom xs len) (pos + 1) := by
  unfold bert_term
  rw [bind_ok (getPos_run pos), bind_ok (eat_u8_ok h)]

theorem step_115 {xs tl0 : List Nat} {pos fl : Nat} (h : xs.drop pos = 115 :: tl0) :
    bert_term xs (fl + 1) pos =
      (do let len ← eat_u8 xs; atom xs len) (pos + 1) := by
  unfold bert_term
  rw [bind_ok (getPos_run pos), bind_ok (eat_u8_ok h)]

theorem step_118 {xs tl0 : List Nat} {pos fl : Nat} (h : xs.drop pos = 118 :: tl0) :
    bert_term xs (fl + 1) pos =
      (do let len ← eat_u16_be xs; atom_utf8 xs len) (pos + 1) := by
  unfold bert_term
  rw [bind_ok (getPos_run pos), bind_ok (eat_u8_ok h)]

theorem step_119 {xs tl0 : List Nat} {pos fl : Nat} (h : xs.drop pos = 119 :: tl0) :
    bert_term xs (fl + 1) pos =
      (do let len ← eat_u8 xs; atom_utf8 xs len) (pos + 1) := by
  unfold bert_term
  rw [bind_ok (getPos_run pos), bind_ok (eat_u8_ok h)]

theorem step_104 {xs tl0 : List Nat} {pos fl : Nat} (h : xs.drop pos = 104 :: tl0) :
    bert_term xs (fl + 1) pos =
      (do let len ← eat_u8 xs; tuple (bert_term xs fl) len) (pos + 1) := by
  conv_lhs => unfold bert_term
  rw [bind_ok (getPos_run pos), bind_ok (eat_u8_ok h)]

theorem step_105 {xs tl0 : List Nat} {pos fl : Nat} (h : xs.drop pos = 105 :: tl0) :
    bert_term xs (fl + 1) pos =
      (do let len ← eat_u32_be xs; tuple (bert_term xs fl) len) (pos + 1) := by
  conv_lhs => unfold bert_term
  rw [bind_ok (getPos_run pos), bind_ok (eat_u8_ok h)]

theorem step_106 {xs tl0 : List Nat} {pos fl : Nat} (h : xs.drop pos = 106 :: tl0) :
    bert_term xs (fl + 1) pos = .ok .Nil (pos + 1) := by
  unfold bert_term
  rw [bind_ok (getPos_run pos), bind_ok (eat_u8_ok h)]
  rfl

theorem step_108 {xs tl0 : List Nat} {pos fl : Nat} (h : xs.drop pos = 108 :: tl0) :
    bert_term xs (fl + 1) pos = Parser.list xs (bert_term xs fl) (pos + 1) := by
  conv_lhs => unfold bert_term
  rw [bind_ok (getPos_run pos), bind_ok (eat_u8_ok h)]

theorem step_107 {xs tl0 : List Nat} {pos fl : Nat} (h : xs.drop pos = 107 :: tl0) :
    bert_term xs (fl + 1) pos = Parser.string xs (pos + 1) := by
  unfold bert_term
  rw [bind_ok (getPos_run pos), bind_ok (eat_u8_ok h)]

theorem step_109 {xs tl0 : List Nat} {pos fl : Nat} (h : xs.drop pos = 109 :: tl0) :
    bert_term xs (fl + 1) pos = binary xs (pos + 1) := by
  unfold bert_term
  rw [bind_ok (getPos_run pos), bind_ok (eat_u8_ok h)]

theorem step_110 {xs tl0 : List Nat} {pos fl : Nat} (h : xs.drop pos = 110 :: tl0) :
    bert_term xs (fl + 1) pos =
      (do let len ← eat_u8 xs; bigint xs len) (pos + 1) := by
  unfold bert_term
  rw [bind_ok (getPos_run pos), bind_ok (eat_u8_ok h)]

theorem step_111 {xs tl0 : List Nat} {pos fl : Nat} (h : xs.drop pos = 111 :: tl0) :
    bert_term xs (fl + 1) pos =
      (do let len ← eat_u32_be xs; bigint xs len) (pos + 1) := by
  unfold bert_term
  rw [bind_ok (getPos_run pos), bind_ok (eat_u8_ok h)]

theorem step_116 {xs tl0 : List Nat} {pos fl : Nat} (h : xs.drop pos = 116 :: tl0) :
    bert_term xs (fl + 1) pos = Parser.map xs (bert_term xs fl) (pos + 1) := by
  conv_lhs => unfold bert_term
  rw [bind_ok (getPos_run pos), bind_ok (eat_u8_ok h)]

/-! ### Multi-byte reads from a known suffix -/

theorem eat_u16_be_ok {xs tl0 : List Nat} {pos b0 b1 : Nat}
    (h : xs.drop pos = b0 :: b1 :: tl0) :
    eat_u16_be xs pos = .ok ((b0 <<< 8) + b1) (pos + 2) := by
  unfold eat_u16_be
  rw [bind_ok (eat_u8_ok h), bind_ok (eat_u8_ok (drop_succ h)), pure_run]

theorem eat_u32_be_ok {xs tl0 : List Nat} {pos b0 b1 b2 b3 : Nat}
    (h : xs.drop pos = b0 :: b1 :: b2 :: b3 :: tl0) :
    eat_u32_be xs pos =
      .ok ((b0 <<< 24) + (b1 <<< 16) + (b2 <<< 8) + b3) (pos + 4) := by
  unfold eat_u32_be
  rw [bind_ok (eat_u8_ok h), bind_ok (eat_u8_ok (drop_succ h)),
    bind_ok (eat_u8_ok (drop_succ (drop_succ h))),
    bind_ok (eat_u8_ok (drop_succ (drop_succ (drop_succ h)))), pure_run]

theorem eat_i32_be_ok {xs tl0 : List Nat} {pos b0 b1 b2 b3 : Nat}
    (h : xs.drop pos = b0 :: b1 :: b2 :: b3 :: tl0) :
    eat_i32_be xs pos =
      .ok (toSigned32 ((b0 <<< 24) + (b1 <<< 16) + (b2 <<< 8) + b3)) (pos + 4) := by
  unfold eat_i32_be
  rw [bind_ok (eat_u8_ok h), bind_ok (eat_u8_ok (drop_succ h)),
    bind_ok (eat_u8_ok (drop_succ (drop_succ h))),
    bind_ok (eat_u8_ok (drop_succ (drop_succ (drop_succ h)))), pure_run]

theorem eat_u64_be_ok {xs tl0 : List Nat} {pos b0 b1 b2 b3 b4 b5 b6 b7 : Nat}
    (h : xs.drop pos = b0 :: b1 :: b2 :: b3 :: b4 :: b5 :: b6 :: b7 :: tl0) :
    eat_u64_be xs pos =
      .ok ((b0 <<< 56) + (b1 <<< 48) + (b2 <<< 40) + (b3 <<< 32) +
        (b4 <<< 24) + (b5 <<< 16) + (b6 <<< 8) + b7) (pos + 8) := by
  unfold eat_u64_be
  rw [bind_ok (eat_u8_ok h), bind_ok (eat_u8_ok (drop_succ h)),
    bind_ok (eat_u8_ok (drop_succ (drop_succ h))),
    bind_ok (eat_u8_ok (drop_succ (drop_succ (drop_succ h)))),
    bind_ok (eat_u8_ok (drop_succ (drop_succ (drop_succ (drop_succ h))))),
    bind_ok (eat_u8_ok (drop_succ (drop_succ (drop_succ (drop_succ (drop_succ h)))))),
    bind_ok (eat_u8_ok (drop_succ (drop_succ (drop_succ (drop_succ (drop_succ
      (drop_succ h))))))),
    bind_ok (eat_u8_ok (drop_succ (drop_succ (drop_succ (drop_succ (drop_succ
      (drop_succ (drop_succ h)))))))), pure_run]

/-- The two length-prefix bytes of `u16be` read back as the length. -/
theorem u16_round {n : Nat} (h : n < 2 ^ 16) : ((n / 256) <<< 8) + n % 256 = n := by
  simp only [Nat.shiftLeft_eq]
  omega

/-- The four length-prefix bytes of `u32be` read back as the length. -/
theorem u32_round {n : Nat} (h : n < 2 ^ 32) :
    ((n / 2 ^ 24) <<< 24) + ((n / 2 ^ 16 % 256) <<< 16) +
      ((n / 256 % 256) <<< 8) + n % 256 = n := by
  simp only [Nat.shiftLeft_eq]
  omega

/-- Skipping a fully known chunk of the suffix. -/
theorem drop_chunk {xs ch rest : List Nat} {pos : Nat}
    (h : xs.drop pos = ch ++ rest) : xs.drop (pos + ch.length) = rest := by
  have h1 := List.drop_drop ch.length pos xs
  rw [h] at h1
  rw [← h1, List.drop_left]

end Parser

namespace Parser

/-- Soundness of the wire grammar: a grammar-generated encoding sitting at
the cursor parses to exactly its term, consuming exactly its bytes, for
any fuel of at least the encoding's length (the recursion depth never
exceeds the number of bytes read). -/
theorem encI_parses {nd : Node} {bs : List Nat} (henc : EncI nd bs) :
    ∀ (xs rest : List Nat) (pos fl : Nat), xs.drop pos = bs ++ rest → bs.length ≤ fl →
    NodeSpec xs fl pos nd bs := by
  induction henc with
  | small_int b hb =>
    intro xs rest pos fl hdrop hfl
    simp only [NodeSpec]
    cases fl with
    | zero => simp at hfl
    | succ f =>
      have h0 : xs.drop pos = 97 :: (b :: rest) := by simpa using hdrop
      rw [step_97 h0]
      unfold small_integer
      rw [bind_ok (eat_u8_ok (drop_succ h0)), pure_run]
      congr 1
  | int_ext b0 b1 b2 b3 h0' h1' h2' h3' =>
    intro xs rest pos fl hdrop hfl
    simp only [NodeSpec]
    cases fl with
    | zero => simp at hfl
    | succ f =>
      have h0 : xs.drop pos = 98 :: (b0 :: b1 :: b2 :: b3 :: rest) := by simpa using hdrop
      rw [step_98 h0]
      unfold integer
      rw [bind_ok (eat_i32_be_ok (drop_succ h0)), pure_run]
      congr 1
  | new_float_ext b0 b1 b2 b3 b4 b5 b6 b7 hb =>
    intro xs rest pos fl hdrop hfl
    simp only [NodeSpec]
    cases fl with
    | zero => simp at hfl
    | succ f =>
      have h0 : xs.drop pos = 70 :: (b0 :: b1 :: b2 :: b3 :: b4 :: b5 :: b6 :: b7 :: rest) := by
        simpa using hdrop
      rw [step_70 h0]
      unfold new_float
      rw [bind_ok (eat_u64_be_ok (drop_succ h0)), pure_run]
      congr 1
  | atom_ext bsP hlen =>
    intro xs rest pos fl hdrop hfl
    simp only [NodeSpec]
    cases fl with
    | zero => simp [u16be] at hfl
    | succ f =>
      have h0 : xs.drop pos =
          100 :: (bsP.length / 256 :: bsP.length % 256 :: (bsP ++ rest)) := by
        simpa [u16be] using hdrop
      rw [step_100 h0]
      rw [bind_ok (eat_u16_be_ok (drop_succ h0))]
      rw [u16_round hlen]
      unfold atom
      rw [bind_ok (getPos_run _),
        bind_ok (eat_bytes_ok bsP (drop_succ (drop_succ (drop_succ h0))))]
      simp only [latin1_decode, ite_self, pure_run]
      congr 1
      simp [u16be]
      omega
  | small_atom_ext bsP hlen =>
    intro xs rest pos fl hdrop hfl
    simp only [NodeSpec]
    cases fl with
    | zero => simp at hfl
    | succ f =>
      have h0 : xs.drop pos = 115 :: (bsP.length :: (bsP ++ rest)) := by
        simpa using hdrop
      rw [step_115 h0]
      rw [bind_ok (eat_u8_ok (drop_succ h0))]
      unfold atom
      rw [bind_ok (getPos_run _), bind_ok (eat_bytes_ok bsP (drop_succ (drop_succ h0)))]
      simp only [latin1_decode, ite_self, pure_run]
      congr 1
      simp
      omega
  | atom_utf8_ext bsP cs hlen hdec =>
    intro xs rest pos fl hdrop hfl
    simp only [NodeSpec]
    cases fl with
    | zero => simp [u16be] at hfl
    | succ f =>
      have h0 : xs.drop pos =
          118 :: (bsP.length / 256 :: bsP.length % 256 :: (bsP ++ rest)) := by
        simpa [u16be] using hdrop
      rw [step_118 h0]
      rw [bind_ok (eat_u16_be_ok (drop_succ h0))]
      rw [u16_round hlen]
      unfold atom_utf8
      rw [bind_ok (getPos_run _),
        bind_ok (eat_bytes_ok bsP (drop_succ (drop_succ (drop_succ h0))))]
      rw [hdec]
      simp only [pure_run]
      congr 1
      simp [u16be]
      omega
  | small_atom_utf8_ext bsP cs hlen hdec =>
    intro xs rest pos fl hdrop hfl
    simp only [NodeSpec]
    cases fl with
    | zero => simp at hfl
    | succ f =>
      have h0 : xs.drop pos = 119 :: (bsP.length :: (bsP ++ rest)) := by
        simpa using hdrop
      rw [step_119 h0]
      rw [bind_ok (eat_u8_ok (drop_succ h0))]
      unfold atom_utf8
      rw [bind_ok (getPos_run _), bind_ok (eat_bytes_ok bsP (drop_succ (drop_succ h0)))]
      rw [hdec]
      simp only [pure_run]
      congr 1
      simp
      omega
  | small_tuple_ext ts bss hn hts ih =>
    intro xs rest pos fl hdrop hfl
    simp only [NodeSpec]
    cases fl with
    | zero => simp at hfl
    | succ f =>
      have h0 : xs.drop pos = 104 :: (ts.length :: (bss ++ rest)) := by simpa using hdrop
      rw [step_104 h0]
      rw [bind_ok (eat_u8_ok (drop_succ h0))]
      unfold tuple
      have hseq : run_terms (bert_term xs f) ts.length (pos + 1 + 1) =
          .ok ts (pos + 1 + 1 + bss.length) :=
        ih xs rest (pos + 1 + 1) f (drop_succ (drop_succ h0)) (by simp at hfl; omega)
      rw [bind_ok hseq, pure_run]
      congr 1
      simp
      omega
  | large_tuple_ext ts bss hn hts ih =>
    intro xs rest pos fl hdrop hfl
    simp only [NodeSpec]
    cases fl with
    | zero => simp [u32be] at hfl
    | succ f =>
      have h0 : xs.drop pos = 105 :: (ts.length / 2 ^ 24 :: ts.length / 2 ^ 16 % 256 ::
          ts.length / 256 % 256 :: ts.length % 256 :: (bss ++ rest)) := by
        simpa [u32be] using hdrop
      rw [step_105 h0]
      rw [bind_ok (eat_u32_be_ok (drop_succ h0))]
      rw [u32_round hn]
      unfold tuple
      have hseq : run_terms (bert_term xs f) ts.length (pos + 1 + 4) =
          .ok ts (pos + 1 + 4 + bss.length) :=
        ih xs rest (pos + 1 + 4)  f
          (by
            have := drop_succ (drop_succ (drop_succ (drop_succ (drop_succ h0))))
            simpa using this)
          (by simp [u32be] at hfl; omega)
      rw [show pos + 1 + 1 + 1 + 1 + 1 = pos + 1 + 4 by omega]
      rw [bind_ok hseq, pure_run]
      congr 1
      simp [u32be]
      omega
  | nil_ext =>
    intro xs rest pos fl hdrop hfl
    simp only [NodeSpec]
    cases fl with
    | zero => simp at hfl
    | succ f =>
      have h0 : xs.drop pos = 106 :: rest := by simpa using hdrop
      rw [step_106 h0]
      congr 1
  | string_ext bsP hlen =>
    intro xs rest pos fl hdrop hfl
    simp only [NodeSpec]
    cases fl with
    | zero => simp [u16be] at hfl
    | succ f =>
      have h0 : xs.drop pos =
          107 :: (bsP.length / 256 :: bsP.length % 256 :: (bsP ++ rest)) := by
        simpa [u16be] using hdrop
      rw [step_107 h0]
      unfold string
      rw [bind_ok (eat_u16_be_ok (drop_succ h0))]
      rw [u16_round hlen]
      rw [bind_ok (eat_bytes_ok bsP (drop_succ (drop_succ (drop_succ h0)))), pure_run]
      congr 1
      simp [u16be]
      omega
  | binary_ext bsP hlen =>
    intro xs rest pos fl hdrop hfl
    simp only [NodeSpec]
    cases fl with
    | zero => simp [u32be] at hfl
    | succ f =>
      have h0 : xs.drop pos = 109 :: (bsP.length / 2 ^ 24 :: bsP.length / 2 ^ 16 % 256 ::
          bsP.length / 256 % 256 :: bsP.length % 256 :: (bsP ++ rest)) := by
        simpa [u32be] using hdrop
      rw [step_109 h0]
      unfold binary
      rw [bind_ok (eat_u32_be_ok (drop_succ h0))]
      rw [u32_round hlen]
      rw [bind_ok (eat_bytes_ok bsP
        (drop_succ (drop_succ (drop_succ (drop_succ (drop_succ h0)))))), pure_run]
      congr 1
      simp [u32be]
      omega
  | list_ext_proper ts bss hn hts ih =>
    intro xs rest pos fl hdrop hfl
    simp only [NodeSpec]
    cases fl with
    | zero => simp [u32be] at hfl
    | succ f =>
      have h0 : xs.drop pos = 108 :: (ts.length / 2 ^ 24 :: ts.length / 2 ^ 16 % 256 ::
          ts.length / 256 % 256 :: ts.length % 256 :: (bss ++ (106 :: rest))) := by
        simpa [u32be] using hdrop
      rw [step_108 h0]
      unfold list
      rw [bind_ok (eat_u32_be_ok (drop_succ h0))]
      rw [u32_round hn]
      have hdrop5 : xs.drop (pos + 1 + 4) = bss ++ (106 :: rest) := by
        have := drop_succ (drop_succ (drop_succ (drop_succ (drop_succ h0))))
        simpa using this
      have hseq : run_terms (bert_term xs f) ts.length (pos + 1 + 4) =
          .ok ts (pos + 1 + 4 + bss.length) :=
        ih xs (106 :: rest) (pos + 1 + 4) f hdrop5 (by simp [u32be] at hfl; omega)
      rw [show pos + 1 + 1 + 1 + 1 + 1 = pos + 1 + 4 by omega]
      rw [bind_ok hseq]
      have hdroptail : xs.drop (pos + 1 + 4 + bss.length) = 106 :: rest :=
        drop_chunk hdrop5
      cases f with
      | zero => simp [u32be] at hfl
      | succ f' =>
        rw [bind_ok (step_106 hdroptail)]
        show (Pure.pure (BertTerm.List ts) : PM BertTerm) _ = _
        rw [pure_run]
        congr 1
        simp [u32be]
        omega
  | list_ext_improper ts bss tl tbs hn hts htl hnn ih ihtl =>
    intro xs rest pos fl hdrop hfl
    simp only [NodeSpec]
    cases fl with
    | zero => simp [u32be] at hfl
    | succ f =>
      have h0 : xs.drop pos = 108 :: (ts.length / 2 ^ 24 :: ts.length / 2 ^ 16 % 256 ::
          ts.length / 256 % 256 :: ts.length % 256 :: (bss ++ (tbs ++ rest))) := by
        simpa [u32be] using hdrop
      rw [step_108 h0]
      unfold list
      rw [bind_ok (eat_u32_be_ok (drop_succ h0))]
      rw [u32_round hn]
      have hdrop5 : xs.drop (pos + 1 + 4) = bss ++ (tbs ++ rest) := by
        have := drop_succ (drop_succ (drop_succ (drop_succ (drop_succ h0))))
        simpa using this
      have hseq : run_terms (bert_term xs f) ts.length (pos + 1 + 4) =
          .ok ts (pos + 1 + 4 + bss.length) :=
        ih xs (tbs ++ rest) (pos + 1 + 4) f hdrop5 (by simp [u32be] at hfl; omega)
      rw [show pos + 1 + 1 + 1 + 1 + 1 = pos + 1 + 4 by omega]
      rw [bind_ok hseq]
      have htail : bert_term xs f (pos + 1 + 4 + bss.length) =
          .ok tl (pos + 1 + 4 + bss.length + tbs.length) :=
        ihtl xs rest (pos + 1 + 4 + bss.length) f (drop_chunk hdrop5)
          (by simp [u32be] at hfl; omega)
      rw [bind_ok htail]
      cases tl with
      | Nil => simp [BertTerm.isNil] at hnn
      | Int n =>
        show (Pure.pure (BertTerm.List (ts ++ [.Int n])) : PM BertTerm) _ = _
        rw [pure_run]; congr 1; simp [u32be]; omega
      | BigInt n =>
        show (Pure.pure (BertTerm.List (ts ++ [.BigInt n])) : PM BertTerm) _ = _
        rw [pure_run]; congr 1; simp [u32be]; omega
      | Float f0 =>
        show (Pure.pure (BertTerm.List (ts ++ [.Float f0])) : PM BertTerm) _ = _
        rw [pure_run]; congr 1; simp [u32be]; omega
      | Atom s =>
        show (Pure.pure (BertTerm.List (ts ++ [.Atom s])) : PM BertTerm) _ = _
        rw [pure_run]; congr 1; simp [u32be]; omega
      | Tuple ts0 =>
        show (Pure.pure (BertTerm.List (ts ++ [.Tuple ts0])) : PM BertTerm) _ = _
        rw [pure_run]; congr 1; simp [u32be]; omega
      | List ts0 =>
        show (Pure.pure (BertTerm.List (ts ++ [.List ts0])) : PM BertTerm) _ = _
        rw [pure_run]; congr 1; simp [u32be]; omega
      | Map ks0 vs0 =>
        show (Pure.pure (BertTerm.List (ts ++ [.Map ks0 vs0])) : PM BertTerm) _ = _
        rw [pure_run]; congr 1; simp [u32be]; omega
      | String bs0 =>
        show (Pure.pure (BertTerm.List (ts ++ [.String bs0])) : PM BertTerm) _ = _
        rw [pure_run]; congr 1; simp [u32be]; omega
      | Binary bs0 =>
        show (Pure.pure (BertTerm.List (ts ++ [.Binary bs0])) : PM BertTerm) _ = _
        rw [pure_run]; congr 1; simp [u32be]; omega
  | small_big_ext s ds hs hlen =>
    intro xs rest pos fl hdrop hfl
    simp only [NodeSpec]
    cases fl with
    | zero => simp at hfl
    | succ f =>
      have h0 : xs.drop pos = 110 :: (ds.length :: s :: (ds ++ rest)) := by
        simpa using hdrop
      rw [step_110 h0]
      rw [bind_ok (eat_u8_ok (drop_succ h0))]
      unfold bigint
      rw [bind_ok (eat_u8_ok (drop_succ (drop_succ h0)))]
      rw [bind_ok (bigint_go_ok ds 0 1 (drop_succ (drop_succ (drop_succ h0))))]
      by_cases hs1 : s = 1
      · rw [if_pos hs1, if_pos hs1, pure_run]
        simp only [zero_add, one_mul]
        congr 1
        simp only [List.length_cons]
        omega
      · rw [if_neg hs1, if_neg hs1, pure_run]
        simp only [zero_add, one_mul]
        congr 1
        simp only [List.length_cons]
        omega
  | large_big_ext s ds hs hlen =>
    intro xs rest pos fl hdrop hfl
    simp only [NodeSpec]
    cases fl with
    | zero => simp [u32be] at hfl
    | succ f =>
      have h0 : xs.drop pos = 111 :: (ds.length / 2 ^ 24 :: ds.length / 2 ^ 16 % 256 ::
          ds.length / 256 % 256 :: ds.length % 256 :: (s :: (ds ++ rest))) := by
        simpa [u32be] using hdrop
      rw [step_111 h0]
      rw [bind_ok (eat_u32_be_ok (drop_succ h0))]
      rw [u32_round hlen]
      unfold bigint
      rw [bind_ok (eat_u8_ok (drop_succ (drop_succ (drop_succ (drop_succ
        (drop_succ h0))))))]
      rw [bind_ok (bigint_go_ok ds 0 1 (drop_succ (drop_succ (drop_succ (drop_succ
        (drop_succ (drop_succ h0)))))))]
      by_cases hs1 : s = 1
      · rw [if_pos hs1, if_pos hs1, pure_run]
        simp only [zero_add, one_mul]
        congr 1
        simp only [u32be, List.length_cons, List.length_append, List.length_nil]
        omega
      · rw [if_neg hs1, if_neg hs1, pure_run]
        simp only [zero_add, one_mul]
        congr 1
        simp only [u32be, List.length_cons, List.length_append, List.length_nil]
        omega
  | map_ext ks vs pbs hn hp ih =>
    intro xs rest pos fl hdrop hfl
    simp only [NodeSpec]
    cases fl with
    | zero => simp [u32be] at hfl
    | succ f =>
      have h0 : xs.drop pos = 116 :: (ks.length / 2 ^ 24 :: ks.length / 2 ^ 16 % 256 ::
          ks.length / 256 % 256 :: ks.length % 256 :: (pbs ++ rest)) := by
        simpa [u32be] using hdrop
      rw [step_116 h0]
      unfold map
      rw [bind_ok (eat_u32_be_ok (drop_succ h0))]
      rw [u32_round hn]
      have hpairs : run_pairs (bert_term xs f) ks.length (pos + 1 + 4) =
          .ok (ks, vs) (pos + 1 + 4 + pbs.length) :=
        ih xs rest (pos + 1 + 4) f
          (by
            have := drop_succ (drop_succ (drop_succ (drop_succ (drop_succ h0))))
            simpa using this)
          (by simp [u32be] at hfl; omega)
      rw [show pos + 1 + 1 + 1 + 1 + 1 = pos + 1 + 4 by omega]
      rw [bind_ok hpairs, pure_run]
      congr 1
      simp [u32be]
      omega
  | seq_nil =>
    intro xs rest pos fl hdrop hfl
    simp only [NodeSpec]
    simp [run_terms]
  | seq_cons t ts ebs bss ht hts ih1 ih2 =>
    intro xs rest pos fl hdrop hfl
    simp only [NodeSpec]
    have hdrop1 : xs.drop pos = ebs ++ (bss ++ rest) := by
      simpa [List.append_assoc] using hdrop
    have hone : bert_term xs fl pos = .ok t (pos + ebs.length) :=
      ih1 xs (bss ++ rest) pos fl hdrop1 (by simp at hfl; omega)
    have hseq : run_terms (bert_term xs fl) ts.length (pos + ebs.length) =
        .ok ts (pos + ebs.length + bss.length) :=
      ih2 xs rest (pos + ebs.length) fl (drop_chunk hdrop1) (by simp at hfl; omega)
    show run_terms (bert_term xs fl) (ts.length + 1) pos = _
    unfold run_terms
    rw [bind_ok hone, bind_ok hseq, pure_run]
    congr 1
    simp
    omega
  | pairs_nil =>
    intro xs rest pos fl hdrop hfl
    simp only [NodeSpec]
    simp [run_pairs]
  | pairs_cons k v ks vs kbs vbs pbs hk hv hp ihk ihv ihp =>
    intro xs rest pos fl hdrop hfl
    simp only [NodeSpec]
    have hdrop1 : xs.drop pos = kbs ++ (vbs ++ (pbs ++ rest)) := by
      simpa [List.append_assoc] using hdrop
    have hkk : bert_term xs fl pos = .ok k (pos + kbs.length) :=
      ihk xs (vbs ++ (pbs ++ rest)) pos fl hdrop1 (by simp at hfl; omega)
    have hdrop2 : xs.drop (pos + kbs.length) = vbs ++ (pbs ++ rest) := drop_chunk hdrop1
    have hvv : bert_term xs fl (pos + kbs.length) =
        .ok v (pos + kbs.length + vbs.length) :=
      ihv xs (pbs ++ rest) (pos + kbs.length) fl hdrop2 (by simp at hfl; omega)
    have hpp : run_pairs (bert_term xs fl) ks.length (pos + kbs.length + vbs.length) =
        .ok (ks, vs) (pos + kbs.length + vbs.length + pbs.length) :=
      ihp xs rest (pos + kbs.length + vbs.length) fl (drop_chunk hdrop2)
        (by simp at hfl; omega)
    show run_pairs (bert_term xs fl) (ks.length + 1) pos = _
    unfold run_pairs
    rw [bind_ok hkk, bind_ok hvv, bind_ok hpp, pure_run]
    congr 1
    simp
    omega

end Parser

namespace Parser

/-! ### Truncation helpers -/

theorem concat_eq_concat {xs ys : List Nat} {a b : Nat}
    (h : xs ++ [a] = ys ++ [b]) : xs = ys ∧ a = b := by
  have h1 := congrArg List.dropLast h
  have h2 := congrArg List.getLast? h
  simp only [List.dropLast_concat] at h1
  simp only [List.getLast?_concat] at h2
  exact ⟨h1, by injection h2⟩

/-- Every single-term encoding is nonempty (it starts with a tag byte). -/
theorem enc_one_ne_nil {t : BertTerm} {bs : List Nat} (h : EncI (.one t) bs) :
    bs ≠ [] := by
  cases h <;> simp

theorem seq_nil_inv {ts : List BertTerm} {bss : List Nat}
    (h : EncI (.seq ts) bss) (hb : bss = []) : ts = [] := by
  cases h with
  | seq_nil => rfl
  | seq_cons t ts' ebs bss' ht hts =>
    exact absurd (List.append_eq_nil.mp hb).1 (enc_one_ne_nil ht)

theorem pairs_nil_inv {ks vs : List BertTerm} {pbs : List Nat}
    (h : EncI (.pairs ks vs) pbs) (hb : pbs = []) : ks = [] ∧ vs = [] := by
  cases h with
  | pairs_nil => exact ⟨rfl, rfl⟩
  | pairs_cons k v ks' vs' kbs vbs pbs' hk hv hp =>
    have h0 := List.append_eq_nil.mp hb
    exact absurd (List.append_eq_nil.mp h0.1).1 (enc_one_ne_nil hk)

/-- A term parse started at (or past) the end of the buffer fails with the
end-of-input error at the attempted offset. -/
theorem bert_term_eof {xs : List Nat} {pos fl : Nat} (h : xs.length ≤ pos) :
    bert_term xs (fl + 1) pos = .err (.EOF pos) := by
  conv_lhs => unfold bert_term
  rw [bind_ok (getPos_run pos), bind_err (eat_u8_eof h)]

/-- The bigint digit loop, asked for one digit more than the buffer holds,
fails at the end of the buffer. -/
theorem bigint_go_eof (ds : List Nat) : ∀ {xs : List Nat} {pos : Nat} (sum mult : Int),
    pos ≤ xs.length → xs.drop pos = ds →
    bigint_go xs (ds.length + 1) sum mult pos = .err (.EOF xs.length) := by
  induction ds with
  | nil =>
    intro xs pos sum mult hpos h
    have hlen : xs.length = pos := by simpa using length_of_drop hpos h
    show bigint_go xs (0 + 1) sum mult pos = _
    unfold bigint_go
    rw [bind_err (eat_u8_eof (by omega))]
    rw [hlen]
  | cons d ds ih =>
    intro xs pos sum mult hpos h
    show bigint_go xs (ds.length + 1 + 1) sum mult pos = _
    unfold bigint_go
    rw [bind_ok (eat_u8_ok h)]
    have hlt := pos_lt_of_drop h
    rw [ih _ _ (by omega) (drop_succ h)]

end Parser

namespace Parser

/-- Truncation: a grammar-generated encoding with its final byte removed,
sitting at the very end of the buffer, makes the parser fail with the
end-of-input error positioned at the buffer length. -/
theorem encI_truncated {nd : Node} {bs : List Nat} (henc : EncI nd bs) :
    ∀ (xs bs' : List Nat) (z : Nat) (pos fl : Nat), bs = bs' ++ [z] →
    xs.drop pos = bs' → pos ≤ xs.length → bs.length ≤ fl →
    TruncSpec xs fl pos nd := by
  induction henc with
  | small_int b hb =>
    intro xs bs' z pos fl hsplit hdrop hpos hfl
    simp only [TruncSpec]
    obtain ⟨hbs', hz⟩ := concat_eq_concat (show ([97] : List Nat) ++ [b] = bs' ++ [z] by
      simpa using hsplit)
    subst hbs'
    have hL := length_of_drop hpos hdrop
    have hxl : xs.length = pos + 1 := by simp at hL; omega
    rw [hxl]
    cases fl with
    | zero => simp at hfl
    | succ f =>
      rw [step_97 hdrop]
      unfold small_integer
      rw [bind_err (eat_u8_eof (by omega))]
  | int_ext b0 b1 b2 b3 h0' h1' h2' h3' =>
    intro xs bs' z pos fl hsplit hdrop hpos hfl
    simp only [TruncSpec]
    obtain ⟨hbs', hz⟩ := concat_eq_concat
      (show ([98, b0, b1, b2] : List Nat) ++ [b3] = bs' ++ [z] by simpa using hsplit)
    subst hbs'
    have hL := length_of_drop hpos hdrop
    have hxl : xs.length = pos + 1 + 1 + 1 + 1 := by simp at hL; omega
    rw [hxl]
    cases fl with
    | zero => simp at hfl
    | succ f =>
      rw [step_98 hdrop]
      unfold integer
      rw [bind_err (show eat_i32_be xs (pos + 1) = .err (.EOF (pos + 1 + 1 + 1 + 1)) by
        unfold eat_i32_be
        rw [bind_ok (eat_u8_ok (drop_succ hdrop)),
          bind_ok (eat_u8_ok (drop_succ (drop_succ hdrop))),
          bind_ok (eat_u8_ok (drop_succ (drop_succ (drop_succ hdrop)))),
          bind_err (eat_u8_eof (by omega))])]
  | new_float_ext b0 b1 b2 b3 b4 b5 b6 b7 hb =>
    intro xs bs' z pos fl hsplit hdrop hpos hfl
    simp only [TruncSpec]
    obtain ⟨hbs', hz⟩ := concat_eq_concat
      (show ([70, b0, b1, b2, b3, b4, b5, b6] : List Nat) ++ [b7] = bs' ++ [z] by
        simpa using hsplit)
    subst hbs'
    have hL := length_of_drop hpos hdrop
    have hxl : xs.length = pos + 1 + 1 + 1 + 1 + 1 + 1 + 1 + 1 := by simp at hL; omega
    rw [hxl]
    cases fl with
    | zero => simp at hfl
    | succ f =>
      rw [step_70 hdrop]
      unfold new_float
      rw [bind_err (show eat_u64_be xs (pos + 1) =
          .err (.EOF (pos + 1 + 1 + 1 + 1 + 1 + 1 + 1 + 1)) by
        unfold eat_u64_be
        rw [bind_ok (eat_u8_ok (drop_succ hdrop)),
          bind_ok (eat_u8_ok (drop_succ (drop_succ hdrop))),
          bind_ok (eat_u8_ok (drop_succ (drop_succ (drop_succ hdrop)))),
          bind_ok (eat_u8_ok (drop_succ (drop_succ (drop_succ (drop_succ hdrop))))),
          bind_ok (eat_u8_ok (drop_succ (drop_succ (drop_succ (drop_succ
            (drop_succ hdrop)))))),
          bind_ok (eat_u8_ok (drop_succ (drop_succ (drop_succ (drop_succ (drop_succ
            (drop_succ hdrop))))))),
          bind_ok (eat_u8_ok (drop_succ (drop_succ (drop_succ (drop_succ (drop_succ
            (drop_succ (drop_succ hdrop)))))))),
          bind_err (eat_u8_eof (by omega))])]
  | atom_ext bsP hplen =>
    intro xs bs' z pos fl hsplit hdrop hpos hfl
    simp only [TruncSpec]
    rcases List.eq_nil_or_concat' bsP with rfl | ⟨bsQ, zq, rfl⟩
    · obtain ⟨hbs', hz⟩ := concat_eq_concat
        (show ([100, 0] : List Nat) ++ [0] = bs' ++ [z] by simpa [u16be] using hsplit)
      subst hbs'
      have hL := length_of_drop hpos hdrop
      have hxl : xs.length = pos + 1 + 1 := by simp at hL; omega
      rw [hxl]
      cases fl with
      | zero => simp [u16be] at hfl
      | succ f =>
        rw [step_100 hdrop]
        rw [bind_err (show eat_u16_be xs (pos + 1) = .err (.EOF (pos + 1 + 1)) by
          unfold eat_u16_be
          rw [bind_ok (eat_u8_ok (drop_succ hdrop)), bind_err (eat_u8_eof (by omega))])]
    · obtain ⟨hbs', hz⟩ := concat_eq_concat
        (show (100 :: u16be (bsQ ++ [zq]).length ++ bsQ) ++ [zq] = bs' ++ [z] by
          simpa [List.append_assoc] using hsplit)
      subst hbs'
      have hL := length_of_drop hpos hdrop
      cases fl with
      | zero => simp [u16be] at hfl
      | succ f =>
        have hdrop0 : xs.drop pos = 100 :: (u16be (bsQ ++ [zq]).length ++ bsQ) := by
          simpa using hdrop
        rw [step_100 hdrop0]
        have h1 : xs.drop (pos + 1) = (bsQ ++ [zq]).length / 256 ::
            (bsQ ++ [zq]).length % 256 :: bsQ := by
          simpa [u16be] using drop_succ hdrop0
        rw [bind_ok (eat_u16_be_ok h1)]
        rw [u16_round hplen]
        unfold atom
        rw [bind_ok (getPos_run _)]
        rw [bind_err (show eat_bytes xs (bsQ ++ [zq]).length (pos + 1 + 1 + 1) =
            .err (.EOF xs.length) by
          rw [show (bsQ ++ [zq]).length = bsQ.length + 1 by simp]
          exact eat_bytes_eof bsQ (by simp [u16be] at hL; omega)
            (drop_succ (drop_succ h1)))]
  | small_atom_ext bsP hplen =>
    intro xs bs' z pos fl hsplit hdrop hpos hfl
    simp only [TruncSpec]
    rcases List.eq_nil_or_concat' bsP with rfl | ⟨bsQ, zq, rfl⟩
    · obtain ⟨hbs', hz⟩ := concat_eq_concat
        (show ([115] : List Nat) ++ [0] = bs' ++ [z] by simpa using hsplit)
      subst hbs'
      have hL := length_of_drop hpos hdrop
      have hxl : xs.length = pos + 1 := by simp at hL; omega
      rw [hxl]
      cases fl with
      | zero => simp at hfl
      | succ f =>
        rw [step_115 hdrop]
        rw [bind_err (eat_u8_eof (by omega))]
    · obtain ⟨hbs', hz⟩ := concat_eq_concat
        (show (115 :: (bsQ ++ [zq]).length :: bsQ) ++ [zq] = bs' ++ [z] by
          simpa using hsplit)
      subst hbs'
      have hL := length_of_drop hpos hdrop
      cases fl with
      | zero => simp at hfl
      | succ f =>
        have hdrop0 : xs.drop pos = 115 :: ((bsQ ++ [zq]).length :: bsQ) := by
          simpa using hdrop
        rw [step_115 hdrop0]
        rw [bind_ok (eat_u8_ok (drop_succ hdrop0))]
        unfold atom
        rw [bind_ok (getPos_run _)]
        rw [bind_err (show eat_bytes xs (bsQ ++ [zq]).length (pos + 1 + 1) =
            .err (.EOF xs.length) by
          rw [show (bsQ ++ [zq]).length = bsQ.length + 1 by simp]
          exact eat_bytes_eof bsQ (by simp at hL; omega) (drop_succ (drop_succ hdrop0)))]
  | atom_utf8_ext bsP cs hplen hdec =>
    intro xs bs' z pos fl hsplit hdrop hpos hfl
    simp only [TruncSpec]
    rcases List.eq_nil_or_concat' bsP with rfl | ⟨bsQ, zq, rfl⟩
    · obtain ⟨hbs', hz⟩ := concat_eq_concat
        (show ([118, 0] : List Nat) ++ [0] = bs' ++ [z] by simpa [u16be] using hsplit)
      subst hbs'
      have hL := length_of_drop hpos hdrop
      have hxl : xs.length = pos + 1 + 1 := by simp at hL; omega
      rw [hxl]
      cases fl with
      | zero => simp [u16be] at hfl
      | succ f =>
        rw [step_118 hdrop]
        rw [bind_err (show eat_u16_be xs (pos + 1) = .err (.EOF (pos + 1 + 1)) by
          unfold eat_u16_be
          rw [bind_ok (eat_u8_ok (drop_succ hdrop)), bind_err (eat_u8_eof (by omega))])]
    · obtain ⟨hbs', hz⟩ := concat_eq_concat
        (show (118 :: u16be (bsQ ++ [zq]).length ++ bsQ) ++ [zq] = bs' ++ [z] by
          simpa [List.append_assoc] using hsplit)
      subst hbs'
      have hL := length_of_drop hpos hdrop
      cases fl with
      | zero => simp [u16be] at hfl
      | succ f =>
        have hdrop0 : xs.drop pos = 118 :: (u16be (bsQ ++ [zq]).length ++ bsQ) := by
          simpa using hdrop
        rw [step_118 hdrop0]
        have h1 : xs.drop (pos + 1) = (bsQ ++ [zq]).length / 256 ::
            (bsQ ++ [zq]).length % 256 :: bsQ := by
          simpa [u16be] using drop_succ hdrop0
        rw [bind_ok (eat_u16_be_ok h1)]
        rw [u16_round hplen]
        unfold atom_utf8
        rw [bind_ok (getPos_run _)]
        rw [bind_err (show eat_bytes xs (bsQ ++ [zq]).length (pos + 1 + 1 + 1) =
            .err (.EOF xs.length) by
          rw [show (bsQ ++ [zq]).length = bsQ.length + 1 by simp]
          exact eat_bytes_eof bsQ (by simp [u16be] at hL; omega)
            (drop_succ (drop_succ h1)))]
  | small_atom_utf8_ext bsP cs hplen hdec =>
    intro xs bs' z pos fl hsplit hdrop hpos hfl
    simp only [TruncSpec]
    rcases List.eq_nil_or_concat' bsP with rfl | ⟨bsQ, zq, rfl⟩
    · obtain ⟨hbs', hz⟩ := concat_eq_concat
        (show ([119] : List Nat) ++ [0] = bs' ++ [z] by simpa using hsplit)
      subst hbs'
      have hL := length_of_drop hpos hdrop
      have hxl : xs.length = pos + 1 := by simp at hL; omega
      rw [hxl]
      cases fl with
      | zero => simp at hfl
      | succ f =>
        rw [step_119 hdrop]
        rw [bind_err (eat_u8_eof (by omega))]
    · obtain ⟨hbs', hz⟩ := concat_eq_concat
        (show (119 :: (bsQ ++ [zq]).length :: bsQ) ++ [zq] = bs' ++ [z] by
          simpa using hsplit)
      subst hbs'
      have hL := length_of_drop hpos hdrop
      cases fl with
      | zero => simp at hfl
      | succ f =>
        have hdrop0 : xs.drop pos = 119 :: ((bsQ ++ [zq]).length :: bsQ) := by
          simpa using hdrop
        rw [step_119 hdrop0]
        rw [bind_ok (eat_u8_ok (drop_succ hdrop0))]
        unfold atom_utf8
        rw [bind_ok (getPos_run _)]
        rw [bind_err (show eat_bytes xs (bsQ ++ [zq]).length (pos + 1 + 1) =
            .err (.EOF xs.length) by
          rw [show (bsQ ++ [zq]).length = bsQ.length + 1 by simp]
          exact eat_bytes_eof bsQ (by simp at hL; omega) (drop_succ (drop_succ hdrop0)))]
  | string_ext bsP hplen =>
    intro xs bs' z pos fl hsplit hdrop hpos hfl
    simp only [TruncSpec]
    rcases List.eq_nil_or_concat' bsP with rfl | ⟨bsQ, zq, rfl⟩
    · obtain ⟨hbs', hz⟩ := concat_eq_concat
        (show ([107, 0] : List Nat) ++ [0] = bs' ++ [z] by simpa [u16be] using hsplit)
      subst hbs'
      have hL := length_of_drop hpos hdrop
      have hxl : xs.length = pos + 1 + 1 := by simp at hL; omega
      rw [hxl]
      cases fl with
      | zero => simp [u16be] at hfl
      | succ f =>
        rw [step_107 hdrop]
        unfold string
        rw [bind_err (show eat_u16_be xs (pos + 1) = .err (.EOF (pos + 1 + 1)) by
          unfold eat_u16_be
          rw [bind_ok (eat_u8_ok (drop_succ hdrop)), bind_err (eat_u8_eof (by omega))])]
    · obtain ⟨hbs', hz⟩ := concat_eq_concat
        (show (107 :: u16be (bsQ ++ [zq]).length ++ bsQ) ++ [zq] = bs' ++ [z] by
          simpa [List.append_assoc] using hsplit)
      subst hbs'
      have hL := length_of_drop hpos hdrop
      cases fl with
      | zero => simp [u16be] at hfl
      | succ f =>
        have hdrop0 : xs.drop pos = 107 :: (u16be (bsQ ++ [zq]).length ++ bsQ) := by
          simpa using hdrop
        rw [step_107 hdrop0]
        unfold string
        have h1 : xs.drop (pos + 1) = (bsQ ++ [zq]).length / 256 ::
            (bsQ ++ [zq]).length % 256 :: bsQ := by
          simpa [u16be] using drop_succ hdrop0
        rw [bind_ok (eat_u16_be_ok h1)]
        rw [u16_round hplen]
        rw [bind_err (show eat_bytes xs (bsQ ++ [zq]).length (pos + 1 + 1 + 1) =
            .err (.EOF xs.length) by
          rw [show (bsQ ++ [zq]).length = bsQ.length + 1 by simp]
          exact eat_bytes_eof bsQ (by simp [u16be] at hL; omega)
            (drop_succ (drop_succ h1)))]
  | binary_ext bsP hplen =>
    intro xs bs' z pos fl hsplit hdrop hpos hfl
    simp only [TruncSpec]
    rcases List.eq_nil_or_concat' bsP with rfl | ⟨bsQ, zq, rfl⟩
    · obtain ⟨hbs', hz⟩ := concat_eq_concat
        (show ([109, 0, 0, 0] : List Nat) ++ [0] = bs' ++ [z] by
          simpa [u32be] using hsplit)
      subst hbs'
      have hL := length_of_drop hpos hdrop
      have hxl : xs.length = pos + 1 + 1 + 1 + 1 := by simp at hL; omega
      rw [hxl]
      cases fl with
      | zero => simp [u32be] at hfl
      | succ f =>
        rw [step_109 hdrop]
        unfold binary
        rw [bind_err (show eat_u32_be xs (pos + 1) =
            .err (.EOF (pos + 1 + 1 + 1 + 1)) by
          unfold eat_u32_be
          rw [bind_ok (eat_u8_ok (drop_succ hdrop)),
            bind_ok (eat_u8_ok (drop_succ (drop_succ hdrop))),
            bind_ok (eat_u8_ok (drop_succ (drop_succ (drop_succ hdrop)))),
            bind_err (eat_u8_eof (by omega))])]
    · obtain ⟨hbs', hz⟩ := concat_eq_concat
        (show (109 :: u32be (bsQ ++ [zq]).length ++ bsQ) ++ [zq] = bs' ++ [z] by
          simpa [List.append_assoc] using hsplit)
      subst hbs'
      have hL := length_of_drop hpos hdrop
      cases fl with
      | zero => simp [u32be] at hfl
      | succ f =>
        have hdrop0 : xs.drop pos = 109 :: (u32be (bsQ ++ [zq]).length ++ bsQ) := by
          simpa using hdrop
        rw [step_109 hdrop0]
        unfold binary
        have h1 : xs.drop (pos + 1) = (bsQ ++ [zq]).length / 2 ^ 24 ::
            (bsQ ++ [zq]).length / 2 ^ 16 % 256 :: (bsQ ++ [zq]).length / 256 % 256 ::
            (bsQ ++ [zq]).length % 256 :: bsQ := by
          simpa [u32be] using drop_succ hdrop0
        rw [bind_ok (eat_u32_be_ok h1)]
        rw [u32_round hplen]
        rw [bind_err (show eat_bytes xs (bsQ ++ [zq]).length (pos + 1 + 4) =
            .err (.EOF xs.length) by
          rw [show (bsQ ++ [zq]).length = bsQ.length + 1 by simp]
          exact eat_bytes_eof bsQ (by simp [u32be] at hL; omega)
            (drop_succ (drop_succ (drop_succ (drop_succ (drop_succ hdrop0))))))]
  | nil_ext =>
    intro xs bs' z pos fl hsplit hdrop hpos hfl
    simp only [TruncSpec]
    obtain ⟨hbs', hz⟩ := concat_eq_concat
      (show ([] : List Nat) ++ [106] = bs' ++ [z] by simpa using hsplit)
    subst hbs'
    have hL := length_of_drop hpos hdrop
    have hxl : xs.length = pos := by simp at hL; omega
    rw [hxl]
    cases fl with
    | zero => simp at hfl
    | succ f => exact bert_term_eof (by omega)
  | small_tuple_ext ts bss hn hts ih =>
    intro xs bs' z pos fl hsplit hdrop hpos hfl
    simp only [TruncSpec]
    rcases List.eq_nil_or_concat' bss with rfl | ⟨bssQ, zb, rfl⟩
    · obtain ⟨hbs', hz⟩ := concat_eq_concat
        (show ([104] : List Nat) ++ [ts.length] = bs' ++ [z] by simpa using hsplit)
      subst hbs'
      have hL := length_of_drop hpos hdrop
      have hxl : xs.length = pos + 1 := by simp at hL; omega
      rw [hxl]
      cases fl with
      | zero => simp at hfl
      | succ f =>
        rw [step_104 hdrop]
        rw [bind_err (eat_u8_eof (by omega))]
    · obtain ⟨hbs', hz⟩ := concat_eq_concat
        (show (104 :: ts.length :: bssQ) ++ [zb] = bs' ++ [z] by simpa using hsplit)
      subst hbs'
      have hL := length_of_drop hpos hdrop
      cases fl with
      | zero => simp at hfl
      | succ f =>
        have hdrop0 : xs.drop pos = 104 :: (ts.length :: bssQ) := by simpa using hdrop
        rw [step_104 hdrop0]
        rw [bind_ok (eat_u8_ok (drop_succ hdrop0))]
        unfold tuple
        have htrunc := ih xs bssQ zb (pos + 1 + 1) f rfl
          (drop_succ (drop_succ hdrop0)) (by simp at hL; omega)
          (by simp at hfl ⊢; omega)
        simp only [TruncSpec] at htrunc
        rw [bind_err htrunc]
  | large_tuple_ext ts bss hn hts ih =>
    intro xs bs' z pos fl hsplit hdrop hpos hfl
    simp only [TruncSpec]
    rcases List.eq_nil_or_concat' bss with rfl | ⟨bssQ, zb, rfl⟩
    · obtain ⟨hbs', hz⟩ := concat_eq_concat
        (show ([105, ts.length / 2 ^ 24, ts.length / 2 ^ 16 % 256,
            ts.length / 256 % 256] : List Nat) ++ [ts.length % 256] = bs' ++ [z] by
          simpa [u32be] using hsplit)
      subst hbs'
      have hL := length_of_drop hpos hdrop
      have hxl : xs.length = pos + 1 + 1 + 1 + 1 := by simp at hL; omega
      rw [hxl]
      cases fl with
      | zero => simp [u32be] at hfl
      | succ f =>
        rw [step_105 hdrop]
        rw [bind_err (show eat_u32_be xs (pos + 1) = .err (.EOF (pos + 1 + 1 + 1 + 1)) by
          unfold eat_u32_be
          rw [bind_ok (eat_u8_ok (drop_succ hdrop)),
            bind_ok (eat_u8_ok (drop_succ (drop_succ hdrop))),
            bind_ok (eat_u8_ok (drop_succ (drop_succ (drop_succ hdrop)))),
            bind_err (eat_u8_eof (by omega))])]
    · obtain ⟨hbs', hz⟩ := concat_eq_concat
        (show (105 :: u32be ts.length ++ bssQ) ++ [zb] = bs' ++ [z] by
          simpa [List.append_assoc] using hsplit)
      subst hbs'
      have hL := length_of_drop hpos hdrop
      cases fl with
      | zero => simp [u32be] at hfl
      | succ f =>
        have h0 : xs.drop pos = 105 :: (ts.length / 2 ^ 24 :: ts.length / 2 ^ 16 % 256 ::
            ts.length / 256 % 256 :: ts.length % 256 :: bssQ) := by
          simpa [u32be] using hdrop
        rw [step_105 h0]
        rw [bind_ok (eat_u32_be_ok (drop_succ h0))]
        rw [u32_round hn]
        unfold tuple
        have htrunc := ih xs bssQ zb (pos + 1 + 4) f rfl
          (by
            have := drop_succ (drop_succ (drop_succ (drop_succ (drop_succ h0))))
            simpa using this)
          (by simp [u32be] at hL; omega)
          (by simp [u32be] at hfl ⊢; omega)
        simp only [TruncSpec] at htrunc
        rw [show pos + 1 + 1 + 1 + 1 + 1 = pos + 1 + 4 by omega]
        rw [bind_err htrunc]
  | list_ext_proper ts bss hn hts ih =>
    intro xs bs' z pos fl hsplit hdrop hpos hfl
    simp only [TruncSpec]
    obtain ⟨hbs', hz⟩ := concat_eq_concat
      (show (108 :: u32be ts.length ++ bss) ++ [106] = bs' ++ [z] by
        simpa [List.append_assoc] using hsplit)
    subst hbs'
    have hL := length_of_drop hpos hdrop
    cases fl with
    | zero => simp [u32be] at hfl
    | succ f =>
      have h0 : xs.drop pos = 108 :: (ts.length / 2 ^ 24 :: ts.length / 2 ^ 16 % 256 ::
          ts.length / 256 % 256 :: ts.length % 256 :: bss) := by
        simpa [u32be] using hdrop
      rw [step_108 h0]
      unfold list
      rw [bind_ok (eat_u32_be_ok (drop_succ h0))]
      rw [u32_round hn]
      have hdrop5 : xs.drop (pos + 1 + 4) = bss ++ [] := by
        have := drop_succ (drop_succ (drop_succ (drop_succ (drop_succ h0))))
        simpa using this
      have hseq := encI_parses hts xs [] (pos + 1 + 4) f hdrop5
        (by simp [u32be] at hfl; omega)
      simp only [NodeSpec] at hseq
      rw [show pos + 1 + 1 + 1 + 1 + 1 = pos + 1 + 4 by omega]
      rw [bind_ok hseq]
      have hxl : xs.length = pos + 1 + 4 + bss.length := by simp [u32be] at hL; omega
      cases f with
      | zero => simp [u32be] at hfl
      | succ f' =>
        rw [bind_err (bert_term_eof (show xs.length ≤ pos + 1 + 4 + bss.length by omega))]
        rw [hxl]
  | list_ext_improper ts bss tl tbs hn hts htl hnn ih ihtl =>
    intro xs bs' z pos fl hsplit hdrop hpos hfl
    simp only [TruncSpec]
    rcases List.eq_nil_or_concat' tbs with rfl | ⟨tbsQ, zt, rfl⟩
    · exact absurd rfl (enc_one_ne_nil htl)
    · obtain ⟨hbs', hz⟩ := concat_eq_concat
        (show (108 :: u32be ts.length ++ bss ++ tbsQ) ++ [zt] = bs' ++ [z] by
          simpa [List.append_assoc] using hsplit)
      subst hbs'
      have hL := length_of_drop hpos hdrop
      cases fl with
      | zero => simp [u32be] at hfl
      | succ f =>
        have h0 : xs.drop pos = 108 :: (ts.length / 2 ^ 24 :: ts.length / 2 ^ 16 % 256 ::
            ts.length / 256 % 256 :: ts.length % 256 :: (bss ++ tbsQ)) := by
          simpa [u32be, List.append_assoc] using hdrop
        rw [step_108 h0]
        unfold list
        rw [bind_ok (eat_u32_be_ok (drop_succ h0))]
        rw [u32_round hn]
        have hdrop5 : xs.drop (pos + 1 + 4) = bss ++ tbsQ := by
          have := drop_succ (drop_succ (drop_succ (drop_succ (drop_succ h0))))
          simpa using this
        have hseq := encI_parses hts xs tbsQ (pos + 1 + 4) f hdrop5
          (by simp [u32be] at hfl; omega)
        simp only [NodeSpec] at hseq
        rw [show pos + 1 + 1 + 1 + 1 + 1 = pos + 1 + 4 by omega]
        rw [bind_ok hseq]
        have htrunc := ihtl xs tbsQ zt (pos + 1 + 4 + bss.length) f rfl
          (drop_chunk hdrop5) (by simp [u32be] at hL; omega)
          (by simp [u32be] at hfl ⊢; omega)
        simp only [TruncSpec] at htrunc
        rw [bind_err htrunc]
  | small_big_ext s ds hs hlen =>
    intro xs bs' z pos fl hsplit hdrop hpos hfl
    simp only [TruncSpec]
    rcases List.eq_nil_or_concat' ds with rfl | ⟨dsQ, zd, rfl⟩
    · obtain ⟨hbs', hz⟩ := concat_eq_concat
        (show ([110, 0] : List Nat) ++ [s] = bs' ++ [z] by simpa using hsplit)
      subst hbs'
      have hL := length_of_drop hpos hdrop
      have hxl : xs.length = pos + 1 + 1 := by simp at hL; omega
      rw [hxl]
      cases fl with
      | zero => simp at hfl
      | succ f =>
        rw [step_110 hdrop]
        rw [bind_ok (eat_u8_ok (drop_succ hdrop))]
        unfold bigint
        rw [bind_err (eat_u8_eof (by omega))]
    · obtain ⟨hbs', hz⟩ := concat_eq_concat
        (show (110 :: (dsQ ++ [zd]).length :: s :: dsQ) ++ [zd] = bs' ++ [z] by
          simpa using hsplit)
      subst hbs'
      have hL := length_of_drop hpos hdrop
      cases fl with
      | zero => simp at hfl
      | succ f =>
        have hdrop0 : xs.drop pos = 110 :: ((dsQ ++ [zd]).length :: s :: dsQ) := by
          simpa using hdrop
        rw [step_110 hdrop0]
        rw [bind_ok (eat_u8_ok (drop_succ hdrop0))]
        unfold bigint
        rw [bind_ok (eat_u8_ok (drop_succ (drop_succ hdrop0)))]
        rw [bind_err (show bigint_go xs (dsQ ++ [zd]).length 0 1 (pos + 1 + 1 + 1) =
            .err (.EOF xs.length) by
          rw [show (dsQ ++ [zd]).length = dsQ.length + 1 by simp]
          exact bigint_go_eof dsQ 0 1 (by simp at hL; omega)
            (drop_succ (drop_succ (drop_succ hdrop0))))]
  | large_big_ext s ds hs hlen =>
    intro xs bs' z pos fl hsplit hdrop hpos hfl
    simp only [TruncSpec]
    rcases List.eq_nil_or_concat' ds with rfl | ⟨dsQ, zd, rfl⟩
    · obtain ⟨hbs', hz⟩ := concat_eq_concat
        (show ([111, 0, 0, 0, 0] : List Nat) ++ [s] = bs' ++ [z] by
          simpa [u32be] using hsplit)
      subst hbs'
      have hL := length_of_drop hpos hdrop
      have hxl : xs.length = pos + 1 + 1 + 1 + 1 + 1 := by simp at hL; omega
      rw [hxl]
      cases fl with
      | zero => simp [u32be] at hfl
      | succ f =>
        rw [step_111 hdrop]
        rw [bind_ok (eat_u32_be_ok (drop_succ hdrop))]
        unfold bigint
        rw [show pos + 1 + 1 + 1 + 1 + 1 = pos + 1 + 4 by omega]
        rw [bind_err (eat_u8_eof (by omega))]
    · obtain ⟨hbs', hz⟩ := concat_eq_concat
        (show (111 :: u32be (dsQ ++ [zd]).length ++ s :: dsQ) ++ [zd] = bs' ++ [z] by
          simpa [List.append_assoc] using hsplit)
      subst hbs'
      have hL := length_of_drop hpos hdrop
      cases fl with
      | zero => simp [u32be] at hfl
      | succ f =>
        have h0 : xs.drop pos = 111 :: ((dsQ ++ [zd]).length / 2 ^ 24 ::
            (dsQ ++ [zd]).length / 2 ^ 16 % 256 :: (dsQ ++ [zd]).length / 256 % 256 ::
            (dsQ ++ [zd]).length % 256 :: (s :: dsQ)) := by
          simpa [u32be] using hdrop
        rw [step_111 h0]
        rw [bind_ok (eat_u32_be_ok (drop_succ h0))]
        rw [u32_round hlen]
        unfold bigint
        rw [bind_ok (eat_u8_ok (drop_succ (drop_succ (drop_succ (drop_succ
          (drop_succ h0))))))]
        rw [bind_err (show bigint_go xs (dsQ ++ [zd]).length 0 1
            (pos + 1 + 1 + 1 + 1 + 1 + 1) = .err (.EOF xs.length) by
          rw [show (dsQ ++ [zd]).length = dsQ.length + 1 by simp]
          exact bigint_go_eof dsQ 0 1 (by simp [u32be] at hL; omega)
            (drop_succ (drop_succ (drop_succ (drop_succ (drop_succ
              (drop_succ h0)))))))]
  | map_ext ks vs pbs hn hp ih =>
    intro xs bs' z pos fl hsplit hdrop hpos hfl
    simp only [TruncSpec]
    rcases List.eq_nil_or_concat' pbs with rfl | ⟨pbsQ, zp, rfl⟩
    · obtain ⟨hbs', hz⟩ := concat_eq_concat
        (show ([116, ks.length / 2 ^ 24, ks.length / 2 ^ 16 % 256,
            ks.length / 256 % 256] : List Nat) ++ [ks.length % 256] = bs' ++ [z] by
          simpa [u32be] using hsplit)
      subst hbs'
      have hL := length_of_drop hpos hdrop
      have hxl : xs.length = pos + 1 + 1 + 1 + 1 := by simp at hL; omega
      rw [hxl]
      cases fl with
      | zero => simp [u32be] at hfl
      | succ f =>
        rw [step_116 hdrop]
        unfold map
        rw [bind_err (show eat_u32_be xs (pos + 1) = .err (.EOF (pos + 1 + 1 + 1 + 1)) by
          unfold eat_u32_be
          rw [bind_ok (eat_u8_ok (drop_succ hdrop)),
            bind_ok (eat_u8_ok (drop_succ (drop_succ hdrop))),
            bind_ok (eat_u8_ok (drop_succ (drop_succ (drop_succ hdrop)))),
            bind_err (eat_u8_eof (by omega))])]
    · obtain ⟨hbs', hz⟩ := concat_eq_concat
        (show (116 :: u32be ks.length ++ pbsQ) ++ [zp] = bs' ++ [z] by
          simpa [List.append_assoc] using hsplit)
      subst hbs'
      have hL := length_of_drop hpos hdrop
      cases fl with
      | zero => simp [u32be] at hfl
      | succ f =>
        have h0 : xs.drop pos = 116 :: (ks.length / 2 ^ 24 :: ks.length / 2 ^ 16 % 256 ::
            ks.length / 256 % 256 :: ks.length % 256 :: pbsQ) := by
          simpa [u32be] using hdrop
        rw [step_116 h0]
        unfold map
        rw [bind_ok (eat_u32_be_ok (drop_succ h0))]
        rw [u32_round hn]
        have htrunc := ih xs pbsQ zp (pos + 1 + 4) f rfl
          (by
            have := drop_succ (drop_succ (drop_succ (drop_succ (drop_succ h0))))
            simpa using this)
          (by simp [u32be] at hL; omega)
          (by simp [u32be] at hfl ⊢; omega)
        simp only [TruncSpec] at htrunc
        rw [show pos + 1 + 1 + 1 + 1 + 1 = pos + 1 + 4 by omega]
        rw [bind_err htrunc]
  | seq_nil =>
    intro xs bs' z pos fl hsplit hdrop hpos hfl
    simp at hsplit
  | seq_cons t ts ebs bss ht hts ih1 ih2 =>
    intro xs bs' z pos fl hsplit hdrop hpos hfl
    simp only [TruncSpec]
    rcases List.eq_nil_or_concat' bss with rfl | ⟨bssQ, zb, rfl⟩
    · have hebs : ebs = bs' ++ [z] := by simpa using hsplit
      have htrunc := ih1 xs bs' z pos fl hebs hdrop hpos (by simp at hfl; omega)
      simp only [TruncSpec] at htrunc
      show run_terms (bert_term xs fl) (ts.length + 1) pos = _
      unfold run_terms
      rw [bind_err htrunc]
    · obtain ⟨hbs', hz⟩ := concat_eq_concat
        (show (ebs ++ bssQ) ++ [zb] = bs' ++ [z] by
          simpa [List.append_assoc] using hsplit)
      subst hbs'
      have hL := length_of_drop hpos hdrop
      have hdrop1 : xs.drop pos = ebs ++ bssQ := hdrop
      have hone := encI_parses ht xs bssQ pos fl hdrop1 (by simp at hfl; omega)
      simp only [NodeSpec] at hone
      have htrunc := ih2 xs bssQ zb (pos + ebs.length) fl rfl (drop_chunk hdrop1)
        (by simp at hL; omega) (by simp at hfl ⊢; omega)
      simp only [TruncSpec] at htrunc
      show run_terms (bert_term xs fl) (ts.length + 1) pos = _
      unfold run_terms
      rw [bind_ok hone, bind_err htrunc]
  | pairs_nil =>
    intro xs bs' z pos fl hsplit hdrop hpos hfl
    simp at hsplit
  | pairs_cons k v ks vs kbs vbs pbs hk hv hp ihk ihv ihp =>
    intro xs bs' z pos fl hsplit hdrop hpos hfl
    simp only [TruncSpec]
    rcases List.eq_nil_or_concat' pbs with rfl | ⟨pbsQ, zp, rfl⟩
    · rcases List.eq_nil_or_concat' vbs with rfl | ⟨vbsQ, zv, rfl⟩
      · exact absurd rfl (enc_one_ne_nil hv)
      · obtain ⟨hbs', hz⟩ := concat_eq_concat
          (show (kbs ++ vbsQ) ++ [zv] = bs' ++ [z] by
            simpa [List.append_assoc] using hsplit)
        subst hbs'
        have hL := length_of_drop hpos hdrop
        have hone := encI_parses hk xs vbsQ pos fl hdrop (by simp at hfl; omega)
        simp only [NodeSpec] at hone
        have htrunc := ihv xs vbsQ zv (pos + kbs.length) fl rfl (drop_chunk hdrop)
          (by simp at hL; omega) (by simp at hfl ⊢; omega)
        simp only [TruncSpec] at htrunc
        show run_pairs (bert_term xs fl) (ks.length + 1) pos = _
        unfold run_pairs
        rw [bind_ok hone, bind_err htrunc]
    · obtain ⟨hbs', hz⟩ := concat_eq_concat
        (show ((kbs ++ vbs) ++ pbsQ) ++ [zp] = bs' ++ [z] by
          simpa [List.append_assoc] using hsplit)
      subst hbs'
      have hL := length_of_drop hpos hdrop
      have hdrop1 : xs.drop pos = kbs ++ (vbs ++ pbsQ) := by
        simpa [List.append_assoc] using hdrop
      have honek := encI_parses hk xs (vbs ++ pbsQ) pos fl hdrop1 (by simp at hfl; omega)
      simp only [NodeSpec] at honek
      have hdrop2 : xs.drop (pos + kbs.length) = vbs ++ pbsQ := drop_chunk hdrop1
      have honev := encI_parses hv xs pbsQ (pos + kbs.length) fl hdrop2
        (by simp at hfl; omega)
      simp only [NodeSpec] at honev
      have htrunc := ihp xs pbsQ zp (pos + kbs.length + vbs.length) fl rfl
        (drop_chunk hdrop2) (by simp at hL; omega) (by simp at hfl ⊢; omega)
      simp only [TruncSpec] at htrunc
      show run_pairs (bert_term xs fl) (ks.length + 1) pos = _
      unfold run_pairs
      rw [bind_ok honek, bind_ok honev, bind_err htrunc]

end Parser

namespace Parser

/-- C4 (corrected): for every well-formed single-term encoding produced by
the wire grammar without the legacy float form (tag 99), `parse` accepts
the marker byte followed by the encoding, and removing the final byte of
that buffer makes `parse` fail with the end-of-input error positioned at
the truncated buffer's length — never an out-of-bounds access and never
success.  (The legacy float form is exempt, as
`truncated_old_float_not_eof` shows.) -/
theorem truncation_hits_eof {t : BertTerm} {bs : List Nat} (henc : Enc t bs) :
    parse (131 :: bs) = .ok t (bs.length + 1) ∧
    parse ((131 :: bs).dropLast) = .err (.EOF bs.length) := by
  constructor
  · apply parse_ok_iff.mpr
    refine ⟨rfl, ?_, by simp⟩
    have hone := encI_parses henc (131 :: bs) [] 1 ((131 :: bs).length + 1)
      (by simp) (by simp; omega)
    simp only [NodeSpec] at hone
    have hlen : (131 :: bs).length = 1 + bs.length := by simp [Nat.add_comm]
    rw [hlen] at hone ⊢
    exact hone
  · rcases List.eq_nil_or_concat' bs with rfl | ⟨bs', z, rfl⟩
    · exact absurd rfl (enc_one_ne_nil henc)
    · have hys : (131 :: (bs' ++ [z])).dropLast = 131 :: bs' := by
        rw [show (131 :: (bs' ++ [z])) = (131 :: bs') ++ [z] by simp]
        exact List.dropLast_concat ..
      rw [hys]
      have htrunc := encI_truncated henc (131 :: bs') bs' z 1 ((131 :: bs').length + 1)
        rfl (by simp) (by simp) (by simp)
      simp only [TruncSpec] at htrunc
      unfold parse
      rw [bind_ok (magic_number_ok (show (131 :: bs').get? 0 = some 131 from rfl))]
      rw [bind_err htrunc]
      simp

/-- Witness: the tuple `{1, []}` encodes as `[104, 2, 97, 1, 106]`; with the
marker the buffer parses fully, and dropping its last byte yields the
end-of-input error at offset 5. -/
theorem truncation_hits_eof_witness :
    Enc (.Tuple [.Int 1, .Nil]) [104, 2, 97, 1, 106] ∧
    parse [131, 104, 2, 97, 1, 106] = .ok (.Tuple [.Int 1, .Nil]) 6 ∧
    parse [131, 104, 2, 97, 1] = .err (.EOF 5) := by
  have h1 : EncI (.one (.Int 1)) [97, 1] := EncI.small_int 1 (by decide)
  have h2 : EncI (.one .Nil) [106] := EncI.nil_ext
  have hseq : EncI (.seq [.Int 1, .Nil]) [97, 1, 106] :=
    EncI.seq_cons _ _ _ _ h1 (EncI.seq_cons _ _ _ _ h2 EncI.seq_nil)
  have henc : Enc (.Tuple [.Int 1, .Nil]) [104, 2, 97, 1, 106] :=
    EncI.small_tuple_ext [.Int 1, .Nil] [97, 1, 106] (by decide) hseq
  refine ⟨henc, ?_, ?_⟩
  · have h := (truncation_hits_eof henc).1
    simpa using h
  · have h := (truncation_hits_eof henc).2
    simpa using h

end Parser
